import Mathlib

/-!
# Verification of `qalgorithms.h` (qtbase 5.15.0, patched)

Shallow embedding of the generic algorithms of
`src/corelib/tools/qalgorithms.h`.

* An iterator is an integer position (`Int`), so that `end - 1`, `m - 1`
  and a negative distance `end - begin` keep the meaning they have in the
  source.
* The sequence is a `List α`; `deref` is `*it` and fails (`none`) outside
  the sequence, so a result `some _` certifies that every dereference was
  inside the sequence.
* `qptrdiff` values are modelled by `Int`: every value computed by the
  helpers is bounded by twice the distance of the range.
* Loops are structurally recursive on a fuel counter: `none` is also the
  answer of a loop that is not finished when its fuel is used up.
-/

namespace QAlgorithms

variable {α : Type}

/-! ## Memory -/

/-- Dereference `*it` at position `it` of the sequence. -/
def deref (xs : List α) (it : Int) : Option α :=
  if 0 ≤ it then xs[it.toNat]? else none

/-- Assignment `*it = v`. -/
def assign (xs : List α) (it : Int) (v : α) : List α :=
  xs.set it.toNat v

/-- Exchange `qSwap(*i, *j)` of the elements at two positions. -/
def qSwap (xs : List α) (i j : Int) : Option (List α) :=
  match deref xs i, deref xs j with
  | some a, some b => some (assign (assign xs i b) j a)
  | _, _ => none

/-- Statement `if (lessThan(*a, *b)) qSwap(*b, *a);`. The source writes the
two arguments of `qSwap` in either order; the exchange does not depend on
it (`qSwap_comm`). -/
def swapIfLess (lessThan : α → α → Bool) (xs : List α) (a b : Int) : Option (List α) :=
  match deref xs a, deref xs b with
  | some x, some y => if lessThan x y then qSwap xs b a else some xs
  | _, _ => none

/-- Functor `qLess<T>` (lines 161-169): `t1 < t2`. -/
def qLess [LT α] [DecidableRel (fun a b : α => a < b)] (t1 t2 : α) : Bool :=
  decide (t1 < t2)

/-- Functor `qGreater<T>` (lines 171-179): `t2 < t1`. -/
def qGreater [LT α] [DecidableRel (fun a b : α => a < b)] (t1 t2 : α) : Bool :=
  decide (t2 < t1)

/-! ## `qSortHelper` (predicate version, lines 394-460) -/

/-- Pivot preparation of `qSortHelper` (lines 407-433); `end_` is the
already decremented `end`. -/
def pivotPrepare (lessThan : α → α → Bool) (xs : List α) (start end_ middle : Int) :
    Option (List α) :=
  if middle > 256 then
    let lmid := start + Int.tdiv middle 2
    let hmid := end_ - Int.tdiv middle 2
    (swapIfLess lessThan xs lmid start).bind fun xs =>
    (swapIfLess lessThan xs hmid lmid).bind fun xs =>
    (swapIfLess lessThan xs lmid start).bind fun xs =>
    (swapIfLess lessThan xs end_ hmid).bind fun xs =>
    (swapIfLess lessThan xs hmid lmid).bind fun xs =>
    swapIfLess lessThan xs end_ hmid
  else
    let mid := start + middle
    (swapIfLess lessThan xs mid start).bind fun xs =>
    (swapIfLess lessThan xs end_ mid).bind fun xs =>
    swapIfLess lessThan xs mid start

/-- Loop `while (++low < end && lessThan(*low, *pivot)) { }` (line 440);
the result is the value of `low` after the loop. -/
def advanceLow (lessThan : α → α → Bool) (xs : List α) (end_ pivot : Int) :
    Nat → Int → Option Int
  | 0, _ => none
  | fuel + 1, low =>
    let low := low + 1
    if low < end_ then
      match deref xs low, deref xs pivot with
      | some a, some p => if lessThan a p then advanceLow lessThan xs end_ pivot fuel low else some low
      | _, _ => none
    else some low

/-- Loop `while (high > start && lessThan(*pivot, *high)) { --high; }`
(line 441); the result is the value of `high` after the loop. -/
def retreatHigh (lessThan : α → α → Bool) (xs : List α) (start pivot : Int) :
    Nat → Int → Option Int
  | 0, _ => none
  | fuel + 1, high =>
    if high > start then
      match deref xs pivot, deref xs high with
      | some p, some h =>
        if lessThan p h then retreatHigh lessThan xs start pivot fuel (high - 1) else some high
      | _, _ => none
    else some high

/-- Partition loop `while (1) { ... }` (lines 439-448); the result is the
sequence and the value of `low` after the `break`. -/
def partitionLoop (lessThan : α → α → Bool) (start end_ pivot : Int) :
    Nat → List α → Int → Int → Option (List α × Int)
  | 0, _, _, _ => none
  | fuel + 1, xs, low, high =>
    let scan := (end_ - start).toNat + 1
    match advanceLow lessThan xs end_ pivot scan low with
    | none => none
    | some low =>
      match retreatHigh lessThan xs start pivot scan high with
      | none => none
      | some high =>
        if low ≥ high then some (xs, low)
        else
          match qSwap xs low high with
          | none => none
          | some xs => partitionLoop lessThan start end_ pivot fuel xs low (high - 1)

/-- Function `QAlgorithmsPrivate::qSortHelper(start, end, t, lessThan)`; the
fuel bounds the depth of the recursive calls. The third parameter has no
name in the source and is never read. -/
def qSortHelper (lessThan : α → α → Bool) : Nat → List α → Int → Int → Option (List α)
  | 0, _, _, _ => none
  | fuel + 1, xs, start, end_ =>
    let distance := end_ - start
    if distance < 2 then some xs
    else
      let end_ := end_ - 1
      let low := start
      let high := end_ - 1
      let middle := Int.tdiv distance 2
      match pivotPrepare lessThan xs start end_ middle with
      | none => none
      | some xs =>
        let pivot := end_
        let startCopy := start
        let endCopy := end_ + 1
        match partitionLoop lessThan start end_ pivot (distance.toNat + 1) xs low high with
        | none => none
        | some (xs, low) =>
          match (if low ≠ pivot then (qSwap xs low pivot).map fun ys => (ys, low)
                 else some (xs, pivot)) with
          | none => none
          | some (xs, pivot) =>
            match (if pivot > startCopy + 1 then qSortHelper lessThan fuel xs startCopy pivot
                   else some xs) with
            | none => none
            | some xs =>
              if endCopy > pivot + 1 then qSortHelper lessThan fuel xs (pivot + 1) endCopy
              else some xs

/-- Function `qSort(start, end, lessThan)` (lines 189-194). -/
def qSort (lessThan : α → α → Bool) (xs : List α) (start end_ : Int) : Option (List α) :=
  if start ≠ end_ then qSortHelper lessThan ((end_ - start).toNat + 1) xs start end_
  else some xs

/-! ## Binary searches (lines 254-320 and 512-578) -/

/-- Constant `std::numeric_limits<int>::max()` for the 32-bit `int`. -/
def INT_MAX : Int := 2147483647

/-- Loop of `qLowerBoundHelper` (lines 522-529) on the state `(l, r)`; the
result is `l` after the loop. One unit of fuel is one evaluation of the
loop condition. -/
def lowerBoundLoop (lessThan : α → α → Bool) (xs : List α) (begin : Int) (value : α) :
    Nat → Int → Int → Option Int
  | 0, _, _ => none
  | fuel + 1, l, r =>
    if l ≤ r then
      let m := Int.tdiv (l + r) 2
      let i := begin + m
      match deref xs i with
      | none => none
      | some x =>
        if lessThan x value then lowerBoundLoop lessThan xs begin value fuel (m + 1) r
        else lowerBoundLoop lessThan xs begin value fuel l (m - 1)
    else some l

/-- Function `QAlgorithmsPrivate::qLowerBoundHelper` (lines 512-532). The
value given to `m` before the loop is overwritten before it is read. -/
def qLowerBoundHelper (lessThan : α → α → Bool) (xs : List α) (begin end_ : Int) (value : α) :
    Option Int :=
  let distance := end_ - begin
  if distance < 0 ∨ distance > INT_MAX then some begin
  else
    let l := 0
    let r := distance - 1
    (lowerBoundLoop lessThan xs begin value (distance.toNat + 1) l r).map fun l => begin + l

/-- Loop of `qUpperBoundHelper` (lines 544-551) on the state `(l, r)`. -/
def upperBoundLoop (lessThan : α → α → Bool) (xs : List α) (begin : Int) (value : α) :
    Nat → Int → Int → Option Int
  | 0, _, _ => none
  | fuel + 1, l, r =>
    if l ≤ r then
      let m := Int.tdiv (l + r) 2
      let i := begin + m
      match deref xs i with
      | none => none
      | some x =>
        if lessThan value x then upperBoundLoop lessThan xs begin value fuel l (m - 1)
        else upperBoundLoop lessThan xs begin value fuel (m + 1) r
    else some l

/-- Function `QAlgorithmsPrivate::qUpperBoundHelper` (lines 534-554). -/
def qUpperBoundHelper (lessThan : α → α → Bool) (xs : List α) (begin end_ : Int) (value : α) :
    Option Int :=
  let distance := end_ - begin
  if distance < 0 ∨ distance > INT_MAX then some begin
  else
    let l := 0
    let r := distance - 1
    (upperBoundLoop lessThan xs begin value (distance.toNat + 1) l r).map fun l => begin + l

/-- Loop of `qBinaryFindHelper` (lines 566-575); the result is the position
returned from inside the loop, or `end_` when the loop runs to its end. -/
def binaryFindLoop (lessThan : α → α → Bool) (xs : List α) (begin end_ : Int) (value : α) :
    Nat → Int → Int → Option Int
  | 0, _, _ => none
  | fuel + 1, l, r =>
    if l ≤ r then
      let m := Int.tdiv (l + r) 2
      let i := begin + m
      match deref xs i with
      | none => none
      | some x =>
        if lessThan x value then binaryFindLoop lessThan xs begin end_ value fuel (m + 1) r
        else if lessThan value x then binaryFindLoop lessThan xs begin end_ value fuel l (m - 1)
        else some i
    else some end_

/-- Function `QAlgorithmsPrivate::qBinaryFindHelper` (lines 556-578). -/
def qBinaryFindHelper (lessThan : α → α → Bool) (xs : List α) (begin end_ : Int) (value : α) :
    Option Int :=
  let distance := end_ - begin
  if distance < 0 ∨ distance > INT_MAX then some end_
  else
    let l := 0
    let r := distance - 1
    binaryFindLoop lessThan xs begin end_ value (distance.toNat + 1) l r

/-- Function `qLowerBound(begin, end, value, lessThan)` (lines 260-264). -/
def qLowerBound (lessThan : α → α → Bool) (xs : List α) (begin end_ : Int) (value : α) :
    Option Int :=
  qLowerBoundHelper lessThan xs begin end_ value

/-- Function `qUpperBound(begin, end, value, lessThan)` (lines 284-288). -/
def qUpperBound (lessThan : α → α → Bool) (xs : List α) (begin end_ : Int) (value : α) :
    Option Int :=
  qUpperBoundHelper lessThan xs begin end_ value

/-- Function `qBinaryFind(begin, end, value, lessThan)` (lines 312-320). -/
def qBinaryFind (lessThan : α → α → Bool) (xs : List α) (begin end_ : Int) (value : α) :
    Option Int :=
  match qLowerBoundHelper lessThan xs begin end_ value with
  | none => none
  | some it =>
    if it ≠ end_ then
      match deref xs it with
      | none => none
      | some x => if !lessThan value x then some it else some end_
    else some end_

/-! ## `qBound` (lines 370-379) -/

/-- Outcome of a failed run-time check. -/
inductive QtFailure where
  | assertFailed
  deriving DecidableEq, Repr

/-- Modelled from the spec: the macro `Q_ASSERT` is defined in `qglobal.h`,
which is not among the given sources. The spec describes a violated
precondition of `clamp` as one that "fails with an assertion-style error,
not a silent wrong answer"; so a false condition stops the function. -/
def Q_ASSERT (cond : Bool) : Except QtFailure Unit :=
  if cond then Except.ok () else Except.error QtFailure.assertFailed

/-- Function `qBound(min, val, max)`; `lt` is `operator<` of the type. -/
def qBound (lt : α → α → Bool) (min val max : α) : Except QtFailure α :=
  match Q_ASSERT (!(lt max min)) with
  | Except.error e => Except.error e
  | Except.ok () =>
    if lt val min then Except.ok min
    else if lt max val then Except.ok max
    else Except.ok val

/-! ## Linear algorithms (lines 84-142) -/

/-- Checked assignment `*it = v`: the position has to be one of the
sequence. -/
def store (xs : List α) (it : Int) (v : α) : Option (List α) :=
  match deref xs it with
  | none => none
  | some _ => some (assign xs it v)

/-- Loop of `qCopy` (lines 87-88), `while (begin != end) *dest++ = *begin++;`;
the result is the memory and the value of `dest` after the loop. -/
def qCopyLoop : Nat → List α → Int → Int → Int → Option (List α × Int)
  | 0, _, _, _, _ => none
  | fuel + 1, xs, begin, end_, dest =>
    if begin ≠ end_ then
      match deref xs begin with
      | none => none
      | some v =>
        match store xs dest v with
        | none => none
        | some ys => qCopyLoop fuel ys (begin + 1) end_ (dest + 1)
    else some (xs, dest)

/-- Function `qCopy(begin, end, dest)` (lines 84-90). -/
def qCopy (xs : List α) (begin end_ dest : Int) : Option (List α × Int) :=
  qCopyLoop ((end_ - begin).toNat + 1) xs begin end_ dest

/-- Loop of `qCopyBackward` (lines 95-96),
`while (begin != end) *--dest = *--end;`; the result is the memory and the
value of `dest` after the loop. -/
def qCopyBackwardLoop : Nat → List α → Int → Int → Int → Option (List α × Int)
  | 0, _, _, _, _ => none
  | fuel + 1, xs, begin, end_, dest =>
    if begin ≠ end_ then
      let end_ := end_ - 1
      let dest := dest - 1
      match deref xs end_ with
      | none => none
      | some v =>
        match store xs dest v with
        | none => none
        | some ys => qCopyBackwardLoop fuel ys begin end_ dest
    else some (xs, dest)

/-- Function `qCopyBackward(begin, end, dest)` (lines 92-98). -/
def qCopyBackward (xs : List α) (begin end_ dest : Int) : Option (List α × Int) :=
  qCopyBackwardLoop ((end_ - begin).toNat + 1) xs begin end_ dest

/-- Loop of `qEqual` (lines 103-106); `eq` is `operator==` of the type. -/
def qEqualLoop (eq : α → α → Bool) : Nat → List α → Int → Int → Int → Option Bool
  | 0, _, _, _, _ => none
  | fuel + 1, xs, first1, last1, first2 =>
    if first1 ≠ last1 then
      match deref xs first1, deref xs first2 with
      | some a, some b =>
        if !(eq a b) then some false
        else qEqualLoop eq fuel xs (first1 + 1) last1 (first2 + 1)
      | _, _ => none
    else some true

/-- Function `qEqual(first1, last1, first2)` (lines 100-107). -/
def qEqual (eq : α → α → Bool) (xs : List α) (first1 last1 first2 : Int) : Option Bool :=
  qEqualLoop eq ((last1 - first1).toNat + 1) xs first1 last1 first2

/-- Loop of `qFind` (lines 125-126),
`while (first != last && !(*first == val)) ++first;`; the result is `first`
after the loop. -/
def qFindLoop (eq : α → α → Bool) : Nat → List α → Int → Int → α → Option Int
  | 0, _, _, _, _ => none
  | fuel + 1, xs, first, last, val =>
    if first ≠ last then
      match deref xs first with
      | none => none
      | some a => if !(eq a val) then qFindLoop eq fuel xs (first + 1) last val else some first
    else some first

/-- Function `qFind(first, last, val)` (lines 122-128). -/
def qFind (eq : α → α → Bool) (xs : List α) (first last : Int) (val : α) : Option Int :=
  qFindLoop eq ((last - first).toNat + 1) xs first last val

/-- Element `*pivot` with which the partition loop of
`qSortHelper(start, end, t, lessThan)` compares (lines 397-435): the last
element of the range after the pivot preparation. -/
def pivotElement (lessThan : α → α → Bool) (xs : List α) (start end_ : Int) : Option α :=
  let distance := end_ - start
  let end_ := end_ - 1
  let middle := Int.tdiv distance 2
  match pivotPrepare lessThan xs start end_ middle with
  | none => none
  | some xs => deref xs end_

/-! ## Iteration counts of the binary searches

The loops of lines 522-529, 544-551 and 566-575 once more, with a counter of
the executions of the loop body next to the position they compute. -/

/-- Loop of `qLowerBoundHelper`: the final `l` and the number of executions
of the loop body. -/
def lowerBoundSteps (lessThan : α → α → Bool) (xs : List α) (begin : Int) (value : α) :
    Nat → Int → Int → Option (Int × Nat)
  | 0, _, _ => none
  | fuel + 1, l, r =>
    if l ≤ r then
      let m := Int.tdiv (l + r) 2
      let i := begin + m
      match deref xs i with
      | none => none
      | some x =>
        (if lessThan x value then lowerBoundSteps lessThan xs begin value fuel (m + 1) r
         else lowerBoundSteps lessThan xs begin value fuel l (m - 1)).map
          fun res => (res.1, res.2 + 1)
    else some (l, 0)

/-- Loop of `qUpperBoundHelper`: the final `l` and the number of executions
of the loop body. -/
def upperBoundSteps (lessThan : α → α → Bool) (xs : List α) (begin : Int) (value : α) :
    Nat → Int → Int → Option (Int × Nat)
  | 0, _, _ => none
  | fuel + 1, l, r =>
    if l ≤ r then
      let m := Int.tdiv (l + r) 2
      let i := begin + m
      match deref xs i with
      | none => none
      | some x =>
        (if lessThan value x then upperBoundSteps lessThan xs begin value fuel l (m - 1)
         else upperBoundSteps lessThan xs begin value fuel (m + 1) r).map
          fun res => (res.1, res.2 + 1)
    else some (l, 0)

/-- Loop of `qBinaryFindHelper`: the position returned and the number of
executions of the loop body, the one that returns included. -/
def binaryFindSteps (lessThan : α → α → Bool) (xs : List α) (begin end_ : Int) (value : α) :
    Nat → Int → Int → Option (Int × Nat)
  | 0, _, _ => none
  | fuel + 1, l, r =>
    if l ≤ r then
      let m := Int.tdiv (l + r) 2
      let i := begin + m
      match deref xs i with
      | none => none
      | some x =>
        if lessThan x value then
          (binaryFindSteps lessThan xs begin end_ value fuel (m + 1) r).map
            fun res => (res.1, res.2 + 1)
        else if lessThan value x then
          (binaryFindSteps lessThan xs begin end_ value fuel l (m - 1)).map
            fun res => (res.1, res.2 + 1)
        else some (i, 1)
    else some (end_, 0)

/-- Bound of C18 on the number of iterations for a range of `n` elements:
`floor(log2 n) + 1`, and `0` for the empty range. -/
def iterationBound (n : Nat) : Nat :=
  if n = 0 then 0 else Nat.log2 n + 1

/-! ## Specification vocabulary -/

/-- The call `qSortHelper(start, end, t, lessThan)` runs to its end with at
most `d` nested activations of `qSortHelper`, the outermost one included:
the fuel of `qSortHelper` is decreased by one at each recursive call and by
nothing else. -/
def CompletesWithinDepth (lessThan : α → α → Bool) (d : Nat) (xs : List α) (start end_ : Int) :
    Prop :=
  (qSortHelper lessThan d xs start end_).isSome = true


/-- Strict weak ordering: irreflexive, transitive, and incomparability is
transitive. -/
structure StrictWeakOrder (P : α → α → Bool) : Prop where
  irrefl : ∀ a, P a a = false
  trans : ∀ a b c, P a b = true → P b c = true → P a c = true
  incomp_trans : ∀ a b c, P a b = false → P b a = false → P b c = false → P c b = false →
    P a c = false ∧ P c a = false

/-- Two elements compare equal under `P`: neither is less than the other. -/
def Equivalent (P : α → α → Bool) (a b : α) : Prop :=
  P a b = false ∧ P b a = false

/-- Every element at a position of `[lo, hi)` satisfies `Q`. -/
def AllIn (xs : List α) (lo hi : Int) (Q : α → Prop) : Prop :=
  ∀ i, lo ≤ i → i < hi → ∀ a, deref xs i = some a → Q a

/-- The positions `[lo, hi)` hold a sequence that is non-decreasing under
`P`: no element is less than an earlier one. -/
def SortedIn (P : α → α → Bool) (xs : List α) (lo hi : Int) : Prop :=
  ∀ i j, lo ≤ i → i < j → j < hi → ∀ a b, deref xs i = some a → deref xs j = some b →
    P b a = false

/-- Sequence `ys` is `xs` with the elements of `[lo, hi)` rearranged among
themselves. -/
structure Shuffle (xs ys : List α) (lo hi : Int) : Prop where
  length_eq : ys.length = xs.length
  perm : ys.Perm xs
  outside : ∀ i, i < lo ∨ hi ≤ i → deref ys i = deref xs i
  allIn : ∀ Q : α → Prop, AllIn xs lo hi Q → AllIn ys lo hi Q

/-- Proof device, not a function of the source: the common shape of the
loops of `qLowerBoundHelper` and `qUpperBoundHelper`, where `goRight x`
stands for the test that selects `l = m + 1`. -/
def bisectLoop (goRight : α → Bool) (xs : List α) (begin : Int) :
    Nat → Int → Int → Option Int
  | 0, _, _ => none
  | fuel + 1, l, r =>
    if l ≤ r then
      let m := Int.tdiv (l + r) 2
      match deref xs (begin + m) with
      | none => none
      | some x =>
        if goRight x then bisectLoop goRight xs begin fuel (m + 1) r
        else bisectLoop goRight xs begin fuel l (m - 1)
    else some l

/-! ## Strict weak orderings -/

theorem StrictWeakOrder.asymm {P : α → α → Bool} (h : StrictWeakOrder P) {a b : α}
    (hab : P a b = true) : P b a = false := by
  cases hba : P b a with
  | false => rfl
  | true =>
    have := h.trans a b a hab hba
    rw [h.irrefl a] at this
    exact absurd this (by decide)

/-- Negative transitivity: "not less" composes. -/
theorem StrictWeakOrder.le_trans {P : α → α → Bool} (h : StrictWeakOrder P) {a b c : α}
    (hba : P b a = false) (hcb : P c b = false) : P c a = false := by
  cases hca : P c a with
  | false => rfl
  | true =>
    exfalso
    cases hab : P a b with
    | true =>
      have := h.trans c a b hca hab
      rw [hcb] at this
      exact absurd this (by decide)
    | false =>
      cases hbc : P b c with
      | true =>
        have := h.trans b c a hbc hca
        rw [hba] at this
        exact absurd this (by decide)
      | false =>
        have := (h.incomp_trans a b c hab hba hbc hcb).2
        rw [hca] at this
        exact absurd this (by decide)

/-! ## Memory lemmas -/

theorem deref_some_iff {xs : List α} {i : Int} {a : α} :
    deref xs i = some a ↔ 0 ≤ i ∧ xs[i.toNat]? = some a := by
  unfold deref
  split <;> simp [*]

theorem deref_bounds {xs : List α} {i : Int} {a : α} (h : deref xs i = some a) :
    0 ≤ i ∧ i < xs.length := by
  obtain ⟨h0, h1⟩ := deref_some_iff.mp h
  obtain ⟨hlt, -⟩ := List.getElem?_eq_some_iff.mp h1
  exact ⟨h0, by omega⟩

theorem deref_exists (xs : List α) (i : Int) (h0 : 0 ≤ i) (h1 : i < xs.length) :
    ∃ a, deref xs i = some a := by
  have hlt : i.toNat < xs.length := by omega
  exact ⟨xs[i.toNat], deref_some_iff.mpr ⟨h0, List.getElem?_eq_getElem hlt⟩⟩

theorem length_assign (xs : List α) (i : Int) (v : α) : (assign xs i v).length = xs.length := by
  simp [assign]

theorem deref_assign_same {xs : List α} {i : Int} (v : α) (h0 : 0 ≤ i) (h1 : i < xs.length) :
    deref (assign xs i v) i = some v := by
  have hlt : i.toNat < xs.length := by omega
  simp [deref, assign, h0, List.getElem?_set, hlt]

theorem deref_assign_other {xs : List α} {i j : Int} (v : α) (h0 : 0 ≤ i) (hij : i ≠ j) :
    deref (assign xs i v) j = deref xs j := by
  unfold deref assign
  split
  · rename_i hj
    have hne : i.toNat ≠ j.toNat := by omega
    simp [List.getElem?_set, hne]
  · rfl

theorem assign_perm {xs : List α} {i j : Int} {a b : α} (hi : deref xs i = some a)
    (hj : deref xs j = some b) : (assign (assign xs i b) j a).Perm xs := by
  classical
  obtain ⟨hi0, hi1⟩ := deref_some_iff.mp hi
  obtain ⟨hj0, hj1⟩ := deref_some_iff.mp hj
  obtain ⟨hil, hia⟩ := List.getElem?_eq_some_iff.mp hi1
  obtain ⟨hjl, hjb⟩ := List.getElem?_eq_some_iff.mp hj1
  rw [List.perm_iff_count]
  intro c
  unfold assign
  rw [List.count_set _ _ _ _ (by simpa using hjl), List.count_set _ _ _ _ hil]
  simp only [List.getElem_set, hia, hjb, ite_self]
  by_cases hac : a = c
  · have hpos : 0 < List.count c xs := by
      subst hac
      exact List.count_pos_iff.mpr (hia ▸ List.getElem_mem _)
    by_cases hbc : b = c <;> simp [hac, hbc] <;> omega
  · by_cases hbc : b = c <;> simp [hac, hbc]

/-! ## Rearrangements inside a range -/

theorem AllIn.subrange {xs : List α} {lo hi lo2 hi2 : Int} {Q : α → Prop} (h : AllIn xs lo hi Q)
    (hlo : lo ≤ lo2) (hhi : hi2 ≤ hi) : AllIn xs lo2 hi2 Q :=
  fun i h1 h2 a ha => h i (by omega) (by omega) a ha

theorem Shuffle.refl (xs : List α) (lo hi : Int) : Shuffle xs xs lo hi :=
  ⟨rfl, List.Perm.refl _, fun _ _ => rfl, fun _ h => h⟩

theorem Shuffle.widen {xs ys : List α} {lo hi lo2 hi2 : Int} (h : Shuffle xs ys lo hi)
    (hlo : lo2 ≤ lo) (hhi : hi ≤ hi2) : Shuffle xs ys lo2 hi2 := by
  refine ⟨h.length_eq, h.perm, fun i hi => h.outside i (by omega), ?_⟩
  intro Q hQ i h1 h2 a ha
  by_cases hin : lo ≤ i ∧ i < hi
  · exact h.allIn Q (hQ.subrange hlo hhi) i hin.1 hin.2 a ha
  · rw [h.outside i (by omega)] at ha
    exact hQ i h1 h2 a ha

theorem Shuffle.trans {xs ys zs : List α} {lo hi : Int} (h1 : Shuffle xs ys lo hi)
    (h2 : Shuffle ys zs lo hi) : Shuffle xs zs lo hi :=
  ⟨h2.length_eq.trans h1.length_eq, h2.perm.trans h1.perm,
    fun i hi => (h2.outside i hi).trans (h1.outside i hi),
    fun Q hQ => h2.allIn Q (h1.allIn Q hQ)⟩

theorem qSwap_spec {xs : List α} {i j : Int} (lo hi : Int) {a b : α} (hi_ : deref xs i = some a)
    (hj : deref xs j = some b) (hli : lo ≤ i) (hih : i < hi) (hlj : lo ≤ j) (hjh : j < hi) :
    ∃ ys, qSwap xs i j = some ys ∧ Shuffle xs ys lo hi ∧ deref ys i = some b ∧
      deref ys j = some a ∧ ∀ k, k ≠ i → k ≠ j → deref ys k = deref xs k := by
  obtain ⟨hi0, hi1⟩ := deref_bounds hi_
  obtain ⟨hj0, hj1⟩ := deref_bounds hj
  have hother : ∀ k, k ≠ i → k ≠ j →
      deref (assign (assign xs i b) j a) k = deref xs k := by
    intro k hki hkj
    rw [deref_assign_other a hj0 (Ne.symm hkj), deref_assign_other b hi0 (Ne.symm hki)]
  have hatj : deref (assign (assign xs i b) j a) j = some a :=
    deref_assign_same a hj0 (by rw [length_assign]; exact hj1)
  have hati : deref (assign (assign xs i b) j a) i = some b := by
    by_cases hij : i = j
    · subst hij
      rw [hi_] at hj
      cases hj
      exact hatj
    · rw [deref_assign_other a hj0 (Ne.symm hij), deref_assign_same b hi0 hi1]
  refine ⟨assign (assign xs i b) j a, by simp [qSwap, hi_, hj], ?_, hati, hatj, hother⟩
  refine ⟨by simp [length_assign], assign_perm hi_ hj, ?_, ?_⟩
  · intro k hk
    exact hother k (by omega) (by omega)
  · intro Q hQ k hk1 hk2 c hc
    by_cases hki : k = i
    · subst hki
      rw [hati] at hc
      cases hc
      exact hQ j hlj hjh _ hj
    · by_cases hkj : k = j
      · subst hkj
        rw [hatj] at hc
        cases hc
        exact hQ i hli hih _ hi_
      · rw [hother k hki hkj] at hc
        exact hQ k hk1 hk2 c hc

/-- Effect of `if (lessThan(*u, *d)) qSwap(*d, *u);`: afterwards the element
at `d` is not greater than the element at `u`, the element at `u` is the
greater and the element at `d` the smaller of the two old elements. -/
theorem swapIfLess_spec {P : α → α → Bool} (hP : StrictWeakOrder P) {xs : List α}
    {u d lo hi : Int} {x y : α} (hu : deref xs u = some x) (hd : deref xs d = some y)
    (hlu : lo ≤ u) (huh : u < hi) (hld : lo ≤ d) (hdh : d < hi) :
    ∃ ys x2 y2, swapIfLess P xs u d = some ys ∧ Shuffle xs ys lo hi ∧
      deref ys u = some x2 ∧ deref ys d = some y2 ∧
      P x2 y2 = false ∧ P x2 x = false ∧ P x2 y = false ∧ P x y2 = false ∧ P y y2 = false ∧
      ∀ k, k ≠ u → k ≠ d → deref ys k = deref xs k := by
  cases hxy : P x y with
  | false =>
    exact ⟨xs, x, y, by simp [swapIfLess, hu, hd, hxy], Shuffle.refl _ _ _, hu, hd, hxy,
      hP.irrefl x, hxy, hxy, hP.irrefl y, fun _ _ _ => rfl⟩
  | true =>
    obtain ⟨ys, hys, hsh, h1, h2, h3⟩ := qSwap_spec lo hi hd hu hld hdh hlu huh
    exact ⟨ys, y, x, by simp [swapIfLess, hu, hd, hxy, hys], hsh, h2, h1, hP.asymm hxy,
      hP.asymm hxy, hP.irrefl y, hP.irrefl x, hP.asymm hxy, fun k hk1 hk2 => h3 k hk2 hk1⟩

theorem swapIfLess_step {P : α → α → Bool} (hP : StrictWeakOrder P) (xs : List α)
    (u d lo hi : Int) (h0 : 0 ≤ lo) (hlen : hi ≤ xs.length)
    (hlu : lo ≤ u) (huh : u < hi) (hld : lo ≤ d) (hdh : d < hi) :
    ∃ ys x y x2 y2, deref xs u = some x ∧ deref xs d = some y ∧
      swapIfLess P xs u d = some ys ∧ Shuffle xs ys lo hi ∧
      deref ys u = some x2 ∧ deref ys d = some y2 ∧
      P x2 y2 = false ∧ P x2 x = false ∧ P x2 y = false ∧ P x y2 = false ∧ P y y2 = false ∧
      ∀ k, k ≠ u → k ≠ d → deref ys k = deref xs k := by
  obtain ⟨x, hx⟩ := deref_exists xs u (by omega) (by omega)
  obtain ⟨y, hy⟩ := deref_exists xs d (by omega) (by omega)
  obtain ⟨ys, x2, y2, h⟩ := swapIfLess_spec hP hx hy hlu huh hld hdh
  exact ⟨ys, x, y, x2, y2, hx, hy, h⟩

/-- After the pivot preparation the first element of the range is not
greater than the last one, which is the pivot. -/
theorem pivotPrepare_spec {P : α → α → Bool} (hP : StrictWeakOrder P) (xs : List α)
    (start end_ middle : Int) (h0 : 0 ≤ start) (hse : start < end_) (hlen : end_ < xs.length)
    (hm : middle = (end_ + 1 - start) / 2) :
    ∃ ys, pivotPrepare P xs start end_ middle = some ys ∧ Shuffle xs ys start (end_ + 1) ∧
      ∀ a b, deref ys start = some a → deref ys end_ = some b → P b a = false := by
  have hmid2 : Int.tdiv middle 2 = middle / 2 := Int.tdiv_eq_ediv (by omega) (by omega)
  by_cases hbig : middle > 256
  · -- median of the four samples start, lmid, hmid, end
    obtain ⟨y1, _, _, l1, s1, -, -, e1, sh1, hl1, hs1, r1, -, -, -, -, o1⟩ :=
      swapIfLess_step hP xs (start + middle / 2) start start
        (end_ + 1) h0 (by omega) (by omega) (by omega) (by omega) (by omega)
    obtain ⟨y2, _, l1b, h2, l2, -, hl1b, e2, sh2, hh2, hl2, -, -, r2, -, -, o2⟩ :=
      swapIfLess_step hP y1 (end_ - middle / 2) (start + middle / 2) start
        (end_ + 1) h0 (by rw [sh1.length_eq]; omega) (by omega) (by omega)
        (by omega) (by omega)
    obtain ⟨y3, _, s2, l3, s3, -, hs2, e3, sh3, hl3, hs3, -, -, -, -, r3, o3⟩ :=
      swapIfLess_step hP y2 (start + middle / 2) start start
        (end_ + 1) h0 (by rw [sh2.length_eq, sh1.length_eq]; omega) (by omega) (by omega)
        (by omega) (by omega)
    obtain ⟨y4, _, h3, e4, h4, -, hh3, e4_, sh4, he4, hh4, -, -, r4, -, -, o4⟩ :=
      swapIfLess_step hP y3 end_ (end_ - middle / 2) start
        (end_ + 1) h0 (by rw [sh3.length_eq, sh2.length_eq, sh1.length_eq]; omega)
        (by omega) (by omega) (by omega) (by omega)
    obtain ⟨y5, _, _, h5, l5, -, -, e5, sh5, hh5, hl5, -, -, -, -, -, o5⟩ :=
      swapIfLess_step hP y4 (end_ - middle / 2) (start + middle / 2) start
        (end_ + 1) h0
        (by rw [sh4.length_eq, sh3.length_eq, sh2.length_eq, sh1.length_eq]; omega)
        (by omega) (by omega) (by omega) (by omega)
    obtain ⟨y6, e5v, _, e6, h6, he5, -, e6_, sh6, he6, hh6, -, r6, -, -, -, o6⟩ :=
      swapIfLess_step hP y5 end_ (end_ - middle / 2) start
        (end_ + 1) h0
        (by rw [sh5.length_eq, sh4.length_eq, sh3.length_eq, sh2.length_eq, sh1.length_eq]; omega)
        (by omega) (by omega) (by omega) (by omega)
    refine ⟨y6, ?_, ((((sh1.trans sh2).trans sh3).trans sh4).trans sh5).trans sh6, ?_⟩
    · simp only [pivotPrepare, if_pos hbig, hmid2, e1, e2, e3, e4_, e5, e6_, Option.some_bind,
        Option.bind_eq_bind]
    · intro a b ha hb
      -- the element at `start` after step 3 stays there
      have hs6 : deref y6 start = some s3 := by
        rw [o6 start (by omega) (by omega), o5 start (by omega) (by omega),
          o4 start (by omega) (by omega)]
        exact hs3
      -- step 2: s1 is not greater than h2
      have hl1_y1 : l1b = l1 := by
        rw [hl1] at hl1b
        exact (Option.some.inj hl1b).symm
      subst hl1_y1
      have hs_y2 : s2 = s1 := by
        rw [o2 start (by omega) (by omega), hs1] at hs2
        exact (Option.some.inj hs2).symm
      subst hs_y2
      have hs1h2 : P h2 s2 = false := hP.le_trans r1 r2
      have hs3h2 : P h2 s3 = false := hP.le_trans r3 hs1h2
      have hh3_eq : h3 = h2 := by
        rw [o3 (end_ - middle / 2) (by omega) (by omega), hh2] at hh3
        exact (Option.some.inj hh3).symm
      subst hh3_eq
      have hs3e4 : P e4 s3 = false := hP.le_trans hs3h2 r4
      have he5_eq : e5v = e4 := by
        rw [o5 end_ (by omega) (by omega), he4] at he5
        exact (Option.some.inj he5).symm
      subst he5_eq
      have hs3e6 : P e6 s3 = false := hP.le_trans hs3e4 r6
      rw [hs6] at ha
      rw [he6] at hb
      cases ha
      cases hb
      exact hs3e6
  · -- median of the three samples start, mid, end
    obtain ⟨y1, _, _, m1, s1, -, -, e1, sh1, hm1, hs1, r1, -, -, -, -, o1⟩ :=
      swapIfLess_step hP xs (start + middle) start start
        (end_ + 1) h0 (by omega) (by omega) (by omega) (by omega) (by omega)
    obtain ⟨y2, _, m1b, e2v, m2, -, hm1b, e2, sh2, he2, hm2, -, -, r2, -, -, o2⟩ :=
      swapIfLess_step hP y1 end_ (start + middle) start
        (end_ + 1) h0 (by rw [sh1.length_eq]; omega) (by omega) (by omega)
        (by omega) (by omega)
    obtain ⟨y3, _, s2, m3, s3, -, hs2, e3, sh3, hm3, hs3, r3a, -, -, -, r3, o3⟩ :=
      swapIfLess_step hP y2 (start + middle) start start
        (end_ + 1) h0 (by rw [sh2.length_eq, sh1.length_eq]; omega) (by omega) (by omega)
        (by omega) (by omega)
    refine ⟨y3, ?_, (sh1.trans sh2).trans sh3, ?_⟩
    · simp only [pivotPrepare, if_neg hbig, e1, e2, e3, Option.some_bind, Option.bind_eq_bind]
    · intro a b ha hb
      rw [hs3] at ha
      cases ha
      by_cases hme : start + middle = end_
      · rw [← hme, hm3] at hb
        cases hb
        exact r3a
      · have hm1_eq : m1b = m1 := by
          rw [hm1] at hm1b
          exact (Option.some.inj hm1b).symm
        subst hm1_eq
        have hs_y2 : s2 = s1 := by
          rw [o2 start (by omega) (by omega), hs1] at hs2
          exact (Option.some.inj hs2).symm
        subst hs_y2
        rw [o3 end_ (by omega) (by omega), he2] at hb
        cases hb
        exact hP.le_trans r3 (hP.le_trans r1 r2)

/-! ## The two scans of the partition loop -/

theorem advanceLow_spec (P : α → α → Bool) {xs : List α} {end_ pivot : Int} {pv : α}
    (hpv : deref xs pivot = some pv) (hlen : end_ ≤ xs.length) :
    ∀ (fuel : Nat) (low : Int), 0 ≤ low → (end_ - low).toNat ≤ fuel → 1 ≤ fuel →
      ∃ low2, advanceLow P xs end_ pivot fuel low = some low2 ∧ low < low2 ∧
        (low2 ≤ end_ ∨ low2 = low + 1) ∧
        (∀ i, low < i → i < low2 → ∀ a, deref xs i = some a → P a pv = true) ∧
        (low2 < end_ → ∀ a, deref xs low2 = some a → P a pv = false) := by
  intro fuel
  induction fuel with
  | zero => intro low _ _ h; omega
  | succ n ih =>
    intro low h0 hf _
    by_cases hlt : low + 1 < end_
    · obtain ⟨a, ha⟩ := deref_exists xs (low + 1) (by omega) (by omega)
      cases hc : P a pv with
      | true =>
        obtain ⟨low2, e, h1, h2, h3, h4⟩ := ih (low + 1) (by omega) (by omega) (by omega)
        refine ⟨low2, ?_, by omega, by omega, ?_, h4⟩
        · simp only [advanceLow, if_pos hlt, ha, hpv, hc, if_true, e]
        · intro i hi1 hi2 b hb
          by_cases hi : i = low + 1
          · subst hi
            rw [ha] at hb
            cases hb
            exact hc
          · exact h3 i (by omega) hi2 b hb
      | false =>
        refine ⟨low + 1, ?_, by omega, by omega, ?_, ?_⟩
        · simp [advanceLow, if_pos hlt, ha, hpv, hc]
        · intro i hi1 hi2
          omega
        · intro _ b hb
          rw [ha] at hb
          cases hb
          exact hc
    · refine ⟨low + 1, ?_, by omega, by omega, ?_, ?_⟩
      · simp only [advanceLow, if_neg hlt]
      · intro i hi1 hi2
        omega
      · intro h
        omega

theorem retreatHigh_spec (P : α → α → Bool) {xs : List α} {start pivot : Int} {pv : α}
    (hpv : deref xs pivot = some pv) (h0 : 0 ≤ start) :
    ∀ (fuel : Nat) (high : Int), high < xs.length → (high - start).toNat + 1 ≤ fuel →
      ∃ high2, retreatHigh P xs start pivot fuel high = some high2 ∧ high2 ≤ high ∧
        (start ≤ high2 ∨ high2 = high) ∧
        (∀ i, high2 < i → i ≤ high → ∀ a, deref xs i = some a → P pv a = true) ∧
        (start < high2 → ∀ a, deref xs high2 = some a → P pv a = false) := by
  intro fuel
  induction fuel with
  | zero => intro high _ h; omega
  | succ n ih =>
    intro high hlen hf
    by_cases hgt : high > start
    · obtain ⟨a, ha⟩ := deref_exists xs high (by omega) (by omega)
      cases hc : P pv a with
      | true =>
        obtain ⟨high2, e, h1, h2, h3, h4⟩ := ih (high - 1) (by omega) (by omega)
        refine ⟨high2, ?_, by omega, by omega, ?_, h4⟩
        · simp only [retreatHigh, if_pos hgt, ha, hpv, hc, if_true, e]
        · intro i hi1 hi2 b hb
          by_cases hi : i = high
          · subst hi
            rw [ha] at hb
            cases hb
            exact hc
          · exact h3 i hi1 (by omega) b hb
      | false =>
        refine ⟨high, ?_, by omega, by omega, ?_, ?_⟩
        · simp [retreatHigh, if_pos hgt, ha, hpv, hc]
        · intro i hi1 hi2
          omega
        · intro _ b hb
          rw [ha] at hb
          cases hb
          exact hc
    · refine ⟨high, ?_, by omega, by omega, ?_, ?_⟩
      · simp only [retreatHigh, if_neg hgt]
      · intro i hi1 hi2
        omega
      · intro h
        omega

/-! ## The partition loop -/

theorem partitionLoop_spec {P : α → α → Bool} (hP : StrictWeakOrder P) (start end_ : Int)
    (pv : α) (h0 : 0 ≤ start) :
    ∀ (fuel : Nat) (xs : List α) (low high : Int), end_ < xs.length →
      deref xs end_ = some pv → start ≤ low → low ≤ high → high < end_ →
      AllIn xs start (low + 1) (fun a => P pv a = false) →
      AllIn xs (high + 1) (end_ + 1) (fun a => P a pv = false) →
      (high - low).toNat + 1 ≤ fuel →
      ∃ ys p, partitionLoop P start end_ end_ fuel xs low high = some (ys, p) ∧
        Shuffle xs ys start end_ ∧ start < p ∧ p ≤ end_ ∧
        AllIn ys start p (fun a => P pv a = false) ∧
        AllIn ys p (end_ + 1) (fun a => P a pv = false) := by
  intro fuel
  induction fuel with
  | zero => intro xs low high _ _ _ _ _ _ _ h; omega
  | succ n ih =>
    intro xs low high hlen hpv hsl hlh hhe hA hB hf
    obtain ⟨low2, e1, l1, l2, l3, l4⟩ := advanceLow_spec P hpv (by omega : end_ ≤ xs.length)
      ((end_ - start).toNat + 1) low (by omega) (by omega) (by omega)
    obtain ⟨high2, e2, g1, g2, g3, g4⟩ := retreatHigh_spec P hpv h0
      ((end_ - start).toNat + 1) high (by omega) (by omega)
    have hbelow : ∀ i, start ≤ i → i < low2 → ∀ a, deref xs i = some a → P pv a = false := by
      intro i hi1 hi2 a ha
      by_cases hil : i ≤ low
      · exact hA i hi1 (by omega) a ha
      · exact hP.asymm (l3 i (by omega) hi2 a ha)
    have habove : ∀ i, high2 < i → i ≤ end_ → ∀ a, deref xs i = some a → P a pv = false := by
      intro i hi1 hi2 a ha
      by_cases hih : i ≤ high
      · exact hP.asymm (g3 i hi1 hih a ha)
      · exact hB i (by omega) (by omega) a ha
    by_cases hbr : low2 ≥ high2
    · refine ⟨xs, low2, ?_, Shuffle.refl _ _ _, by omega, by omega, ?_, ?_⟩
      · simp only [partitionLoop, e1, e2, if_pos hbr]
      · intro i hi1 hi2 a ha
        exact hbelow i hi1 hi2 a ha
      · intro i hi1 hi2 a ha
        by_cases hie : i = end_
        · subst hie
          rw [hpv] at ha
          cases ha
          exact hP.irrefl _
        · by_cases hil : i = low2
          · subst hil
            exact l4 (by omega) a ha
          · exact habove i (by omega) (by omega) a ha
    · obtain ⟨a2, ha2⟩ := deref_exists xs low2 (by omega) (by omega)
      obtain ⟨b2, hb2⟩ := deref_exists xs high2 (by omega) (by omega)
      have ra : P a2 pv = false := l4 (by omega) a2 ha2
      have rb : P pv b2 = false := g4 (by omega) b2 hb2
      obtain ⟨ys, e3, sh, s1, s2, s3⟩ := qSwap_spec start end_ ha2 hb2
        (by omega) (by omega) (by omega) (by omega)
      obtain ⟨zs, p, e4, sh2, p1, p2, p3, p4⟩ := ih ys low2 (high2 - 1)
        (by rw [sh.length_eq]; exact hlen)
        (by rw [s3 end_ (by omega) (by omega)]; exact hpv) (by omega) (by omega) (by omega)
        (by
          intro i hi1 hi2 a ha
          by_cases hil : i = low2
          · subst hil
            rw [s1] at ha
            cases ha
            exact rb
          · rw [s3 i hil (by omega)] at ha
            exact hbelow i hi1 (by omega) a ha)
        (by
          intro i hi1 hi2 a ha
          by_cases hih : i = high2
          · subst hih
            rw [s2] at ha
            cases ha
            exact ra
          · rw [s3 i (by omega) hih] at ha
            exact habove i (by omega) (by omega) a ha)
        (by omega)
      refine ⟨zs, p, ?_, sh.trans sh2, p1, p2, p3, p4⟩
      simp only [partitionLoop, e1, e2, if_neg hbr, e3, e4]

/-! ## `qSortHelper` sorts -/

/-- Placing the pivot (lines 450-453) after the partition loop. -/
theorem pivotPlace_spec (P : α → α → Bool) (xs : List α) {start e p : Int} {pv : α}
    (hlen : e < xs.length) (hpv : deref xs e = some pv) (hsp : start < p) (hpe : p ≤ e)
    (h0 : 0 ≤ start)
    (hL : AllIn xs start p (fun a => P pv a = false))
    (hR : AllIn xs p (e + 1) (fun a => P a pv = false)) :
    ∃ zs, (if p ≠ e then (qSwap xs p e).map fun ys => (ys, p) else some (xs, e)) = some (zs, p) ∧
      Shuffle xs zs start (e + 1) ∧ deref zs p = some pv ∧
      AllIn zs start p (fun a => P pv a = false) ∧
      AllIn zs (p + 1) (e + 1) (fun a => P a pv = false) := by
  by_cases hne : p ≠ e
  · obtain ⟨a, ha⟩ := deref_exists xs p (by omega) (by omega)
    obtain ⟨zs, e1, sh, s1, s2, s3⟩ := qSwap_spec start (e + 1) ha hpv
      (by omega) (by omega) (by omega) (by omega)
    refine ⟨zs, by simp only [if_pos hne, e1, Option.map_some'], sh, s1, ?_, ?_⟩
    · intro i hi1 hi2 b hb
      rw [s3 i (by omega) (by omega)] at hb
      exact hL i hi1 hi2 b hb
    · intro i hi1 hi2 b hb
      by_cases hie : i = e
      · subst hie
        rw [s2] at hb
        cases hb
        exact hR p (by omega) (by omega) _ ha
      · rw [s3 i (by omega) hie] at hb
        exact hR i (by omega) hi2 b hb
  · have hpe2 : p = e := by omega
    subst hpe2
    refine ⟨xs, by simp, Shuffle.refl _ _ _, hpv, hL, ?_⟩
    intro i hi1 hi2
    omega

theorem qSortHelper_spec {P : α → α → Bool} (hP : StrictWeakOrder P) :
    ∀ (fuel : Nat) (xs : List α) (start end_ : Int), 0 ≤ start → end_ ≤ xs.length →
      (end_ - start).toNat < fuel →
      ∃ ys, qSortHelper P fuel xs start end_ = some ys ∧ Shuffle xs ys start end_ ∧
        SortedIn P ys start end_ := by
  intro fuel
  induction fuel with
  | zero => intro xs start end_ _ _ h; omega
  | succ n ih =>
    intro xs start end_ h0 hlen hf
    by_cases hd : end_ - start < 2
    · refine ⟨xs, by simp only [qSortHelper, if_pos hd], Shuffle.refl _ _ _, ?_⟩
      intro i j hi hij hj
      omega
    · obtain ⟨e, he⟩ : ∃ e, end_ = e + 1 := ⟨end_ - 1, by omega⟩
      subst he
      have hmid : Int.tdiv (e + 1 - start) 2 = (e + 1 - start) / 2 :=
        Int.tdiv_eq_ediv (by omega) (by omega)
      obtain ⟨ys1, e1, sh1, hprep⟩ := pivotPrepare_spec hP xs start e
        ((e + 1 - start) / 2) h0 (by omega) (by omega) rfl
      obtain ⟨pv, hpv⟩ := deref_exists ys1 e (by omega)
        (by rw [sh1.length_eq]; omega)
      obtain ⟨ys2, p, e2, sh2, p1, p2, hL, hR⟩ := partitionLoop_spec hP start e pv h0 ((e + 1 - start).toNat + 1) ys1 start (e - 1)
        (by rw [sh1.length_eq]; omega) hpv (by omega) (by omega) (by omega)
        (by
          intro i hi1 hi2 a ha
          have : i = start := by omega
          subst this
          exact hprep a pv ha hpv)
        (by
          intro i hi1 hi2 a ha
          have : i = e := by omega
          subst this
          rw [hpv] at ha
          cases ha
          exact hP.irrefl _)
        (by omega)
      have hlen2 : ys2.length = xs.length := sh2.length_eq.trans sh1.length_eq
      have hpv2 : deref ys2 e = some pv := by
        rw [sh2.outside e (by omega)]
        exact hpv
      obtain ⟨zs, e3, sh3, hzp, hzL, hzR⟩ := pivotPlace_spec P ys2
        (by rw [hlen2]; omega) hpv2 p1 p2 h0 hL hR
      have hlen3 : zs.length = xs.length := sh3.length_eq.trans hlen2
      -- left part
      obtain ⟨ws, e4, sh4, hws⟩ : ∃ ws,
          (if p > start + 1 then qSortHelper P n zs start p else some zs) = some ws ∧
          Shuffle zs ws start p ∧ SortedIn P ws start p := by
        by_cases hc : p > start + 1
        · obtain ⟨ws, e4, sh4, hws⟩ := ih zs start p h0 (by rw [hlen3]; omega) (by omega)
          exact ⟨ws, by simp only [if_pos hc, e4], sh4, hws⟩
        · refine ⟨zs, by simp only [if_neg hc], Shuffle.refl _ _ _, ?_⟩
          intro i j hi hij hj
          omega
      have hlen4 : ws.length = xs.length := sh4.length_eq.trans hlen3
      -- right part
      obtain ⟨vs, e5, sh5, hvs⟩ : ∃ vs,
          (if e + 1 > p + 1 then qSortHelper P n ws (p + 1) (e + 1) else some ws) = some vs ∧
          Shuffle ws vs (p + 1) (e + 1) ∧ SortedIn P vs (p + 1) (e + 1) := by
        by_cases hc : e + 1 > p + 1
        · obtain ⟨vs, e5, sh5, hvs⟩ := ih ws (p + 1) (e + 1) (by omega) (by rw [hlen4]; omega)
            (by omega)
          exact ⟨vs, by simp only [if_pos hc, e5], sh5, hvs⟩
        · refine ⟨ws, by simp only [if_neg hc], Shuffle.refl _ _ _, ?_⟩
          intro i j hi hij hj
          omega
      refine ⟨vs, ?_, ?_, ?_⟩
      · simp only [qSortHelper, if_neg hd, Int.add_sub_cancel, hmid, e1, e2, e3, e4, e5]
      · exact (((sh1.trans (sh2.widen (le_refl _) (by omega))).trans sh3).trans
          (sh4.widen (le_refl _) (by omega))).trans (sh5.widen (by omega) (le_refl _))
      · -- facts about the final sequence
        have hvp : deref vs p = some pv := by
          rw [sh5.outside p (by omega), sh4.outside p (by omega)]
          exact hzp
        have hvL : AllIn vs start p (fun a => P pv a = false) := by
          intro i hi1 hi2 a ha
          rw [sh5.outside i (by omega)] at ha
          exact sh4.allIn _ hzL i hi1 hi2 a ha
        have hvR : AllIn vs (p + 1) (e + 1) (fun a => P a pv = false) := by
          apply sh5.allIn
          intro i hi1 hi2 a ha
          rw [sh4.outside i (by omega)] at ha
          exact hzR i hi1 hi2 a ha
        intro i j hi hij hj a b ha hb
        by_cases hjp : j < p
        · rw [sh5.outside i (by omega)] at ha
          rw [sh5.outside j (by omega)] at hb
          exact hws i j hi hij hjp a b ha hb
        · by_cases hip : p < i
          · exact hvs i j (by omega) hij hj a b ha hb
          · -- i ≤ p ≤ j
            have hia : P pv a = false := by
              by_cases hi2 : i = p
              · subst hi2
                rw [hvp] at ha
                cases ha
                exact hP.irrefl _
              · exact hvL i hi (by omega) a ha
            have hjb : P b pv = false := by
              by_cases hj2 : j = p
              · subst hj2
                rw [hvp] at hb
                cases hb
                exact hP.irrefl _
              · exact hvR j (by omega) hj b hb
            exact hP.le_trans hia hjb

/-! ## From positions back to lists -/

theorem deref_natCast (xs : List α) (n : Nat) : deref xs (n : Int) = xs[n]? := by
  simp [deref]

theorem qLess_nat_strictWeakOrder : StrictWeakOrder (qLess (α := Nat)) := by
  refine ⟨fun a => by simp [qLess], ?_, ?_⟩
  · intro a b c h1 h2
    simp only [qLess, decide_eq_true_eq] at *
    omega
  · intro a b c h1 h2 h3 h4
    simp only [qLess, decide_eq_false_iff_not, not_lt] at *
    omega

/-- A rearrangement inside the positions of `S` in `pre ++ S ++ post` is
`pre ++ out ++ post` for a permutation `out` of `S`. -/
theorem Shuffle.decompose {pre S post ys : List α}
    (h : Shuffle (pre ++ S ++ post) ys pre.length (pre.length + S.length)) :
    ∃ out, ys = pre ++ out ++ post ∧ out.length = S.length ∧ out.Perm S := by
  have hlen : ys.length = pre.length + S.length + post.length := by
    rw [h.length_eq]
    simp only [List.length_append]
  have hout : ∀ n : Nat, n < pre.length ∨ pre.length + S.length ≤ n →
      ys[n]? = (pre ++ S ++ post)[n]? := by
    intro n hn
    have := h.outside (n : Int) (by omega)
    rwa [deref_natCast, deref_natCast] at this
  have hol : ((ys.drop pre.length).take S.length).length = S.length := by
    simp
    omega
  have heq : ys = pre ++ (ys.drop pre.length).take S.length ++ post := by
    apply List.ext_getElem?
    intro n
    by_cases h1 : n < pre.length
    · rw [hout n (Or.inl h1), List.append_assoc, List.append_assoc,
        List.getElem?_append_left h1, List.getElem?_append_left h1]
    · by_cases h2 : n < pre.length + S.length
      · rw [List.append_assoc, List.getElem?_append_right (by omega),
          List.getElem?_append_left (by omega), List.getElem?_take_of_lt (by omega),
          List.getElem?_drop]
        congr 1
        omega
      · rw [hout n (Or.inr (by omega)), List.getElem?_append_right (by simp; omega),
          List.getElem?_append_right (by simp; omega)]
        simp only [List.length_append, hol]
  refine ⟨(ys.drop pre.length).take S.length, heq, hol, ?_⟩
  have hp := h.perm
  rw [heq, List.append_assoc, List.append_assoc, List.perm_append_left_iff,
    List.perm_append_right_iff] at hp
  exact hp

theorem deref_middle (pre out post : List α) (i : Nat) (hi : i < out.length) :
    deref (pre ++ out ++ post) ((pre.length : Int) + i) = some out[i] := by
  have : ((pre.length : Int) + i) = ((pre.length + i : Nat) : Int) := by omega
  rw [this, deref_natCast, List.append_assoc, List.getElem?_append_right (by omega),
    List.getElem?_append_left (by omega)]
  simp [List.getElem?_eq_getElem, hi]

theorem SortedIn.pairwise {P : α → α → Bool} {pre out post : List α}
    (h : SortedIn P (pre ++ out ++ post) pre.length (pre.length + out.length)) :
    List.Pairwise (fun x y => P y x = false) out := by
  rw [List.pairwise_iff_getElem]
  intro i j hi hj hij
  exact h (pre.length + i) (pre.length + j) (by omega) (by omega) (by omega) _ _
    (deref_middle pre out post i hi) (deref_middle pre out post j hj)

/-! ## The binary searches -/

theorem qSwap_comm (xs : List α) (i j : Int) : qSwap xs i j = qSwap xs j i := by
  unfold qSwap
  cases hi : deref xs i with
  | none => cases deref xs j <;> rfl
  | some a =>
    cases hj : deref xs j with
    | none => rfl
    | some b =>
      simp only [Option.some.injEq]
      by_cases hij : i = j
      · subst hij
        rw [hi] at hj
        cases hj
        rfl
      · have h1 := (deref_bounds hi).1
        have h2 := (deref_bounds hj).1
        unfold assign
        rw [List.set_comm]
        omega

theorem lowerBoundLoop_eq_bisect (P : α → α → Bool) (xs : List α) (begin : Int) (v : α) :
    ∀ (fuel : Nat) (l r : Int),
      lowerBoundLoop P xs begin v fuel l r = bisectLoop (fun x => P x v) xs begin fuel l r := by
  intro fuel
  induction fuel with
  | zero => intro l r; rfl
  | succ n ih =>
    intro l r
    simp only [lowerBoundLoop, bisectLoop, ih]

theorem upperBoundLoop_eq_bisect (P : α → α → Bool) (xs : List α) (begin : Int) (v : α) :
    ∀ (fuel : Nat) (l r : Int),
      upperBoundLoop P xs begin v fuel l r = bisectLoop (fun x => !P v x) xs begin fuel l r := by
  intro fuel
  induction fuel with
  | zero => intro l r; rfl
  | succ n ih =>
    intro l r
    simp only [upperBoundLoop, bisectLoop, ih]
    split
    · cases deref xs (begin + Int.tdiv (l + r) 2) with
      | none => rfl
      | some x => cases hp : P v x <;> simp [hp]
    · rfl

/-- The bisection returns the boundary of a test that holds on a prefix of
the range `[begin, begin + n)`. -/
theorem bisectLoop_spec (goRight : α → Bool) (xs : List α) (begin n : Int) (h0 : 0 ≤ begin)
    (hlen : begin + n ≤ xs.length)
    (hmono : ∀ i j a b, 0 ≤ i → i ≤ j → j < n → deref xs (begin + i) = some a →
      deref xs (begin + j) = some b → goRight b = true → goRight a = true) :
    ∀ (fuel : Nat) (l r : Int), 0 ≤ l → l ≤ r + 1 → r < n →
      (∀ i a, 0 ≤ i → i < l → deref xs (begin + i) = some a → goRight a = true) →
      (∀ i a, r < i → i < n → deref xs (begin + i) = some a → goRight a = false) →
      (r + 1 - l).toNat < fuel →
      ∃ k, bisectLoop goRight xs begin fuel l r = some k ∧ 0 ≤ k ∧ k ≤ n ∧
        (∀ i a, 0 ≤ i → i < k → deref xs (begin + i) = some a → goRight a = true) ∧
        (∀ i a, k ≤ i → i < n → deref xs (begin + i) = some a → goRight a = false) := by
  intro fuel
  induction fuel with
  | zero => intro l r _ _ _ _ _ h; omega
  | succ f ih =>
    intro l r hl hlr hrn hL hR hf
    by_cases hc : l ≤ r
    · have hm : Int.tdiv (l + r) 2 = (l + r) / 2 := Int.tdiv_eq_ediv (by omega) (by omega)
      obtain ⟨x, hx⟩ := deref_exists xs (begin + (l + r) / 2) (by omega) (by omega)
      cases ht : goRight x with
      | true =>
        obtain ⟨k, e, k1, k2, k3, k4⟩ := ih ((l + r) / 2 + 1) r (by omega) (by omega) hrn
          (by
            intro i a hi1 hi2 ha
            exact hmono i ((l + r) / 2) a x hi1 (by omega) (by omega) ha hx ht)
          hR (by omega)
        exact ⟨k, by simp only [bisectLoop, if_pos hc, hm, hx, ht, if_true, e], k1, k2, k3, k4⟩
      | false =>
        obtain ⟨k, e, k1, k2, k3, k4⟩ := ih l ((l + r) / 2 - 1) hl (by omega) (by omega) hL
          (by
            intro i a hi1 hi2 ha
            cases hta : goRight a with
            | false => rfl
            | true =>
              have := hmono ((l + r) / 2) i x a (by omega) (by omega) hi2 hx ha hta
              rw [ht] at this
              exact absurd this (by decide))
          (by omega)
        refine ⟨k, ?_, k1, k2, k3, k4⟩
        simp [bisectLoop, if_pos hc, hm, hx, ht, e]
    · refine ⟨l, by simp only [bisectLoop, if_neg hc], hl, by omega, hL, ?_⟩
      intro i a hi1 hi2 ha
      exact hR i a (by omega) hi2 ha

theorem deref_middle_int (pre S post : List α) (i : Int) (h0 : 0 ≤ i) (hi : i < S.length) :
    ∃ h : i.toNat < S.length, deref (pre ++ S ++ post) ((pre.length : Int) + i) = some S[i.toNat] := by
  have hlt : i.toNat < S.length := by omega
  refine ⟨hlt, ?_⟩
  have := deref_middle pre S post i.toNat hlt
  rwa [Int.toNat_of_nonneg h0] at this

/-- The bisection on a sequence stored between `pre` and `post`. -/
theorem bisectLoop_on_list (goRight : α → Bool) (pre S post : List α)
    (hmono : ∀ i j (hi : i < S.length) (hj : j < S.length), i ≤ j →
      goRight S[j] = true → goRight S[i] = true) :
    ∃ k : Nat, bisectLoop goRight (pre ++ S ++ post) pre.length (S.length + 1) 0
        ((S.length : Int) - 1) = some (k : Int) ∧ k ≤ S.length ∧
      (∀ i (hi : i < S.length), i < k → goRight S[i] = true) ∧
      (∀ i (hi : i < S.length), k ≤ i → goRight S[i] = false) := by
  obtain ⟨k, e, k1, k2, k3, k4⟩ := bisectLoop_spec goRight
    (pre ++ S ++ post) pre.length S.length (by omega)
    (by simp only [List.length_append]; omega)
    (by
      intro i j a b hi hij hj ha hb hgb
      obtain ⟨hi2, hia⟩ := deref_middle_int pre S post i hi (by omega)
      obtain ⟨hj2, hjb⟩ := deref_middle_int pre S post j (by omega) hj
      rw [hia] at ha
      rw [hjb] at hb
      cases ha
      cases hb
      exact hmono i.toNat j.toNat hi2 hj2 (by omega) hgb)
    (S.length + 1) 0 ((S.length : Int) - 1) (by omega) (by omega) (by omega)
    (by intro i a h1 h2; omega) (by intro i a h1 h2; omega) (by omega)
  refine ⟨k.toNat, by rw [Int.toNat_of_nonneg k1]; exact e, by omega, ?_, ?_⟩
  · intro i hi hik
    exact k3 i S[i] (by omega) (by omega) (deref_middle pre S post i hi)
  · intro i hi hki
    exact k4 i S[i] (by omega) (by omega) (deref_middle pre S post i hi)

theorem sorted_of_chain {P : α → α → Bool} (hP : StrictWeakOrder P) {S : List α}
    (h : List.Chain' (fun x y => P y x = false) S) :
    List.Pairwise (fun x y => P y x = false) S := by
  haveI : IsTrans α (fun x y => P y x = false) := ⟨fun _ _ _ hab hbc => hP.le_trans hab hbc⟩
  exact List.chain'_iff_pairwise.mp h

/-- Lower bound on a sorted sequence of at most `INT_MAX` elements. -/
theorem lowerBound_core {P : α → α → Bool} (hP : StrictWeakOrder P) (pre S post : List α)
    (v : α) (hs : List.Pairwise (fun x y => P y x = false) S) (hn : (S.length : Int) ≤ INT_MAX) :
    ∃ k : Nat, qLowerBoundHelper P (pre ++ S ++ post) pre.length (pre.length + S.length) v
        = some ((pre.length : Int) + k) ∧ k ≤ S.length ∧
      (∀ i (hi : i < S.length), i < k → P S[i] v = true) ∧
      (∀ i (hi : i < S.length), k ≤ i → P S[i] v = false) := by
  rw [List.pairwise_iff_getElem] at hs
  obtain ⟨k, e, hk⟩ := bisectLoop_on_list (fun x => P x v) pre S post (by
    intro i j hi hj hij hb
    by_cases h : i = j
    · subst h
      exact hb
    · have hb2 : P S[j] v = true := hb
      cases ha : P S[i] v with
      | true => exact ha
      | false =>
        rw [hP.le_trans ha (hs i j hi hj (by omega))] at hb2
        exact absurd hb2 (by decide))
  refine ⟨k, ?_, hk⟩
  have hd : (pre.length : Int) + S.length - pre.length = S.length := by omega
  have hg : ¬ ((S.length : Int) < 0 ∨ (S.length : Int) > INT_MAX) := by omega
  simp only [qLowerBoundHelper, hd, if_neg hg, lowerBoundLoop_eq_bisect, Int.toNat_ofNat, e,
    Option.map_some']

/-- Upper bound on a sorted sequence of at most `INT_MAX` elements. -/
theorem upperBound_core {P : α → α → Bool} (hP : StrictWeakOrder P) (pre S post : List α)
    (v : α) (hs : List.Pairwise (fun x y => P y x = false) S) (hn : (S.length : Int) ≤ INT_MAX) :
    ∃ k : Nat, qUpperBoundHelper P (pre ++ S ++ post) pre.length (pre.length + S.length) v
        = some ((pre.length : Int) + k) ∧ k ≤ S.length ∧
      (∀ i (hi : i < S.length), i < k → P v S[i] = false) ∧
      (∀ i (hi : i < S.length), k ≤ i → P v S[i] = true) := by
  rw [List.pairwise_iff_getElem] at hs
  obtain ⟨k, e, hk1, hk2, hk3⟩ := bisectLoop_on_list (fun x => !P v x) pre S post (by
    intro i j hi hj hij hb
    by_cases h : i = j
    · subst h
      exact hb
    · simp only [Bool.not_eq_true'] at hb ⊢
      exact hP.le_trans (hs i j hi hj (by omega)) hb)
  refine ⟨k, ?_, hk1, ?_, ?_⟩
  · have hd : (pre.length : Int) + S.length - pre.length = S.length := by omega
    have hg : ¬ ((S.length : Int) < 0 ∨ (S.length : Int) > INT_MAX) := by omega
    simp only [qUpperBoundHelper, hd, if_neg hg, upperBoundLoop_eq_bisect, Int.toNat_ofNat, e,
      Option.map_some']
  · intro i hi hik
    simpa using hk2 i hi hik
  · intro i hi hki
    simpa using hk3 i hi hki

/-- On a constant sequence longer than `INT_MAX` the guard of the two
helpers answers `begin`, though every element is less than the value. -/
theorem guard_on_replicate (n : Nat) (h : INT_MAX < (n : Int)) :
    List.Chain' (fun x y => qLess y x = false) (List.replicate n (0 : Nat)) ∧
    qLowerBound qLess (List.replicate n (0 : Nat)) 0 (n : Int) 1 = some 0 ∧
    qUpperBound qLess (List.replicate n (0 : Nat)) 0 (n : Int) 1 = some 0 ∧
    ¬ (∀ (i : Nat) (a : Nat), (0 : Int) ≤ i → (List.replicate n (0 : Nat))[i]? = some a →
        qLess a 1 = false) := by
  have hg : (n : Int) - 0 < 0 ∨ (n : Int) - 0 > INT_MAX := by omega
  have hpos : 0 < n := by
    have : (0 : Int) ≤ INT_MAX := by decide
    omega
  refine ⟨List.Pairwise.chain' (List.pairwise_replicate.mpr (Or.inr (by simp [qLess]))), ?_, ?_, ?_⟩
  · simp only [qLowerBound, qLowerBoundHelper, if_pos hg]
  · simp only [qUpperBound, qUpperBoundHelper, if_pos hg]
  · intro hall
    have := hall 0 0 (le_refl _) (by rw [List.getElem?_replicate, if_pos hpos])
    simp [qLess] at this

/-! ## Claims -/

/-- C1: for every strict weak ordering `P` and every sequence `S` (stored
anywhere in memory, between `pre` and `post`), `qSort(start, end, P)`
returns, leaves the rest of the memory as it was and leaves in `[start, end)`
a permutation of `S` that is non-decreasing under `P`: no element is less
than an earlier one, in particular for no adjacent pair `x, y` does
`P(y, x)` hold. -/
theorem qSort_sorted_permutation {P : α → α → Bool} (hP : StrictWeakOrder P)
    (pre S post : List α) :
    ∃ out, qSort P (pre ++ S ++ post) pre.length (pre.length + S.length)
        = some (pre ++ out ++ post) ∧
      out.Perm S ∧ List.Pairwise (fun x y => P y x = false) out ∧
      List.Chain' (fun x y => P y x = false) out := by
  obtain ⟨ys, e, sh, hs⟩ := qSortHelper_spec hP
    ((((pre.length : Int) + S.length) - pre.length).toNat + 1) (pre ++ S ++ post)
    pre.length (pre.length + S.length) (by omega) (by simp) (by omega)
  obtain ⟨out, rfl, hlen, hperm⟩ := sh.decompose
  rw [← hlen] at hs
  have hpw := hs.pairwise
  refine ⟨out, ?_, hperm, hpw, hpw.chain'⟩
  unfold qSort
  split
  · exact e
  · rename_i hne
    have hS : S = [] := by
      apply List.eq_nil_of_length_eq_zero
      simp only [ne_eq, not_not] at hne
      omega
    subst hS
    have : out = [] := List.eq_nil_of_length_eq_zero (by simpa using hlen)
    subst this
    rfl

/-- Witness of C1, the scenario of the specification: with less-than,
`S = [5,3,1,4,1,5,9,2,6]` is sorted to `[1,1,2,3,4,5,5,6,9]`. -/
theorem qSort_sorted_permutation_witness :
    StrictWeakOrder (qLess (α := Nat)) ∧
    qSort (qLess (α := Nat)) [5, 3, 1, 4, 1, 5, 9, 2, 6] 0 9
      = some [1, 1, 2, 3, 4, 5, 5, 6, 9] ∧
    ∃ out, qSort (qLess (α := Nat)) ([] ++ [5, 3, 1, 4, 1, 5, 9, 2, 6] ++ []) 0 (0 + 9)
        = some ([] ++ out ++ []) ∧
      out.Perm [5, 3, 1, 4, 1, 5, 9, 2, 6] ∧
      List.Pairwise (fun x y => qLess y x = false) out ∧
      List.Chain' (fun x y => qLess y x = false) out :=
  ⟨qLess_nat_strictWeakOrder, by decide,
    qSort_sorted_permutation qLess_nat_strictWeakOrder [] [5, 3, 1, 4, 1, 5, 9, 2, 6] []⟩

/-- C3: on a sequence `S` of at most `INT_MAX` elements that is ordered by a
strict weak ordering `P`, `qLowerBound(begin, end, v, P)` returns
`begin + k` for the least index `k` of `[0, n]` with `P(S[k], v)` false:
`P(S[i], v)` holds for every `i < k`, fails at `k` when `k < n`, no index
below `k` has it false, and `k = n` when it holds everywhere. -/
theorem qLowerBound_least_index {P : α → α → Bool} (hP : StrictWeakOrder P)
    (pre S post : List α) (v : α) (hs : List.Chain' (fun x y => P y x = false) S)
    (hn : (S.length : Int) ≤ INT_MAX) :
    ∃ k : Nat, qLowerBound P (pre ++ S ++ post) pre.length (pre.length + S.length) v
        = some ((pre.length : Int) + k) ∧ k ≤ S.length ∧
      (∀ i (hi : i < S.length), i < k → P S[i] v = true) ∧
      (∀ hk : k < S.length, P S[k] v = false) ∧
      (∀ j (hj : j < S.length), P S[j] v = false → k ≤ j) ∧
      ((∀ i (hi : i < S.length), P S[i] v = true) → k = S.length) := by
  obtain ⟨k, e, k1, k2, k3⟩ := lowerBound_core hP pre S post v (sorted_of_chain hP hs) hn
  refine ⟨k, e, k1, k2, fun hk => k3 k hk (le_refl _), ?_, ?_⟩
  · intro j hj hf
    by_contra hlt
    rw [k2 j hj (by omega)] at hf
    exact absurd hf (by decide)
  · intro hall
    by_contra hne
    have hk : k < S.length := by omega
    have := k3 k hk (le_refl _)
    rw [hall k hk] at this
    exact absurd this (by decide)

/-- Witness of C3: `[1, 2, 2, 5]` stored after `[7]`, searched for `2`. -/
theorem qLowerBound_least_index_witness :
    ∃ k : Nat, qLowerBound (qLess (α := Nat)) ([7] ++ [1, 2, 2, 5] ++ [0]) 1 (1 + 4) 2
        = some ((1 : Int) + k) ∧ k ≤ 4 ∧
      (∀ i (hi : i < [1, 2, 2, 5].length), i < k → qLess [1, 2, 2, 5][i] 2 = true) ∧
      (∀ hk : k < [1, 2, 2, 5].length, qLess [1, 2, 2, 5][k] 2 = false) ∧
      (∀ j (hj : j < [1, 2, 2, 5].length), qLess [1, 2, 2, 5][j] 2 = false → k ≤ j) ∧
      ((∀ i (hi : i < [1, 2, 2, 5].length), qLess [1, 2, 2, 5][i] 2 = true) → k = 4) :=
  qLowerBound_least_index qLess_nat_strictWeakOrder [7] [1, 2, 2, 5] [0] 2
    (by simp [qLess]) (by decide)

/-- C4: on a sequence `S` of at most `INT_MAX` elements that is ordered by a
strict weak ordering `P`, `qUpperBound(begin, end, v, P)` returns
`begin + k` for the least index `k` of `[0, n]` with `P(v, S[k])` true:
`P(v, S[i])` is false for every `i < k`, holds at `k` when `k < n`, no index
below `k` has it true, and `k = n` when no element satisfies it. -/
theorem qUpperBound_least_index {P : α → α → Bool} (hP : StrictWeakOrder P)
    (pre S post : List α) (v : α) (hs : List.Chain' (fun x y => P y x = false) S)
    (hn : (S.length : Int) ≤ INT_MAX) :
    ∃ k : Nat, qUpperBound P (pre ++ S ++ post) pre.length (pre.length + S.length) v
        = some ((pre.length : Int) + k) ∧ k ≤ S.length ∧
      (∀ i (hi : i < S.length), i < k → P v S[i] = false) ∧
      (∀ hk : k < S.length, P v S[k] = true) ∧
      (∀ j (hj : j < S.length), P v S[j] = true → k ≤ j) ∧
      ((∀ i (hi : i < S.length), P v S[i] = false) → k = S.length) := by
  obtain ⟨k, e, k1, k2, k3⟩ := upperBound_core hP pre S post v (sorted_of_chain hP hs) hn
  refine ⟨k, e, k1, k2, fun hk => k3 k hk (le_refl _), ?_, ?_⟩
  · intro j hj hf
    by_contra hlt
    rw [k2 j hj (by omega)] at hf
    exact absurd hf (by decide)
  · intro hall
    by_contra hne
    have hk : k < S.length := by omega
    have := k3 k hk (le_refl _)
    rw [hall k hk] at this
    exact absurd this (by decide)

/-- Witness of C4: `[1, 2, 2, 5]` stored after `[7]`, searched for `2`. -/
theorem qUpperBound_least_index_witness :
    ∃ k : Nat, qUpperBound (qLess (α := Nat)) ([7] ++ [1, 2, 2, 5] ++ [0]) 1 (1 + 4) 2
        = some ((1 : Int) + k) ∧ k ≤ 4 ∧
      (∀ i (hi : i < [1, 2, 2, 5].length), i < k → qLess 2 [1, 2, 2, 5][i] = false) ∧
      (∀ hk : k < [1, 2, 2, 5].length, qLess 2 [1, 2, 2, 5][k] = true) ∧
      (∀ j (hj : j < [1, 2, 2, 5].length), qLess 2 [1, 2, 2, 5][j] = true → k ≤ j) ∧
      ((∀ i (hi : i < [1, 2, 2, 5].length), qLess 2 [1, 2, 2, 5][i] = false) → k = 4) :=
  qUpperBound_least_index qLess_nat_strictWeakOrder [7] [1, 2, 2, 5] [0] 2
    (by simp [qLess]) (by decide)

/-- C5, as stated, fails: the sequence of 2147483648 zeros is sorted, both
bounds for the value `1` are `begin` (the guard on the distance), and the
element at that position is less than `1`. -/
theorem lower_upper_bracket_counterexample :
    StrictWeakOrder (qLess (α := Nat)) ∧
    List.Chain' (fun x y => qLess y x = false) (List.replicate 2147483648 (0 : Nat)) ∧
    qLowerBound qLess (List.replicate 2147483648 (0 : Nat)) 0 ((2147483648 : Nat) : Int) 1
      = some 0 ∧
    qUpperBound qLess (List.replicate 2147483648 (0 : Nat)) 0 ((2147483648 : Nat) : Int) 1
      = some 0 ∧
    ¬ (∀ (i : Nat) (a : Nat), (0 : Int) ≤ i →
        (List.replicate 2147483648 (0 : Nat))[i]? = some a → qLess a 1 = false) :=
  ⟨qLess_nat_strictWeakOrder, guard_on_replicate 2147483648 (by decide)⟩

/-- C5, amended: on a sequence `S` of at most `INT_MAX` elements sorted
under a strict weak ordering, with `lo = qLowerBound(S, v)` and
`hi = qUpperBound(S, v)`: `lo ≤ hi`; every element at a position of
`[lo, hi)` compares equal to `v`; every element before `lo` is less than
`v`; every element at or after `hi` is not less than `v`. -/
theorem lower_upper_bracket {P : α → α → Bool} (hP : StrictWeakOrder P)
    (pre S post : List α) (v : α) (hs : List.Chain' (fun x y => P y x = false) S)
    (hn : (S.length : Int) ≤ INT_MAX) :
    ∃ lo hi : Nat,
      qLowerBound P (pre ++ S ++ post) pre.length (pre.length + S.length) v
        = some ((pre.length : Int) + lo) ∧
      qUpperBound P (pre ++ S ++ post) pre.length (pre.length + S.length) v
        = some ((pre.length : Int) + hi) ∧
      lo ≤ hi ∧ hi ≤ S.length ∧
      (∀ i (h : i < S.length), lo ≤ i → i < hi → Equivalent P S[i] v) ∧
      (∀ i (h : i < S.length), i < lo → P S[i] v = true) ∧
      (∀ i (h : i < S.length), hi ≤ i → P S[i] v = false) := by
  have hsorted := sorted_of_chain hP hs
  obtain ⟨lo, e1, l1, l2, l3⟩ := lowerBound_core hP pre S post v hsorted hn
  obtain ⟨hi, e2, u1, u2, u3⟩ := upperBound_core hP pre S post v hsorted hn
  have hle : lo ≤ hi := by
    by_contra hlt
    have hh : hi < S.length := by omega
    have h1 := l2 hi hh (by omega)
    have h2 := hP.asymm (u3 hi hh (le_refl _))
    rw [h1] at h2
    exact absurd h2 (by decide)
  refine ⟨lo, hi, e1, e2, hle, u1, ?_, l2, ?_⟩
  · intro i h h1 h2
    exact ⟨l3 i h h1, u2 i h h2⟩
  · intro i h h1
    exact l3 i h (by omega)

/-- Witness of C5 (amended): `[1, 2, 2, 5]` stored after `[7]`, value `2`. -/
theorem lower_upper_bracket_witness :
    ∃ lo hi : Nat,
      qLowerBound (qLess (α := Nat)) ([7] ++ [1, 2, 2, 5] ++ [0]) 1 (1 + 4) 2
        = some ((1 : Int) + lo) ∧
      qUpperBound (qLess (α := Nat)) ([7] ++ [1, 2, 2, 5] ++ [0]) 1 (1 + 4) 2
        = some ((1 : Int) + hi) ∧
      lo ≤ hi ∧ hi ≤ 4 ∧
      (∀ i (h : i < [1, 2, 2, 5].length), lo ≤ i → i < hi →
        Equivalent qLess [1, 2, 2, 5][i] 2) ∧
      (∀ i (h : i < [1, 2, 2, 5].length), i < lo → qLess [1, 2, 2, 5][i] 2 = true) ∧
      (∀ i (h : i < [1, 2, 2, 5].length), hi ≤ i → qLess [1, 2, 2, 5][i] 2 = false) :=
  lower_upper_bracket qLess_nat_strictWeakOrder [7] [1, 2, 2, 5] [0] 2
    (by simp [qLess]) (by decide)

/-- C6: on a sequence `S` of at most `INT_MAX` elements sorted under a
strict weak ordering `P`, `qBinaryFind(begin, end, v, P)` returns a position
other than `end` if and only if `S` has an element that compares equal to
`v`; the position returned then lies in the range and its element is
neither less than `v` nor is `v` less than it; otherwise the result is
`end`. -/
theorem qBinaryFind_found_iff {P : α → α → Bool} (hP : StrictWeakOrder P)
    (pre S post : List α) (v : α) (hs : List.Chain' (fun x y => P y x = false) S)
    (hn : (S.length : Int) ≤ INT_MAX) :
    ∃ r : Int, qBinaryFind P (pre ++ S ++ post) pre.length (pre.length + S.length) v = some r ∧
      (r ≠ (pre.length : Int) + S.length ↔ ∃ x, x ∈ S ∧ Equivalent P x v) ∧
      (r ≠ (pre.length : Int) + S.length →
        ∃ k, ∃ hk : k < S.length, r = (pre.length : Int) + k ∧ Equivalent P S[k] v) := by
  have hsorted := sorted_of_chain hP hs
  obtain ⟨lo, e, l1, l2, l3⟩ := lowerBound_core hP pre S post v hsorted hn
  rw [List.pairwise_iff_getElem] at hsorted
  by_cases hlo : lo = S.length
  · subst hlo
    refine ⟨(pre.length : Int) + S.length,
      by simp only [qBinaryFind, e]; exact if_neg (fun h => h rfl), ?_, fun h => absurd rfl h⟩
    constructor
    · intro h
      exact absurd rfl h
    · rintro ⟨x, hx, hxv⟩
      obtain ⟨i, hi, rfl⟩ := List.mem_iff_getElem.mp hx
      have := l2 i hi hi
      rw [hxv.1] at this
      exact absurd this (by decide)
  · have hlt : lo < S.length := by omega
    have hne : (pre.length : Int) + lo ≠ (pre.length : Int) + S.length := by omega
    have hd := deref_middle pre S post lo hlt
    cases hv : P v S[lo] with
    | false =>
      refine ⟨(pre.length : Int) + lo,
        by simp only [qBinaryFind, e, if_pos hne, hd, hv]; rfl, ?_, ?_⟩
      · constructor
        · intro _
          exact ⟨S[lo], List.getElem_mem _, l3 lo hlt (le_refl _), hv⟩
        · intro _
          exact hne
      · intro _
        exact ⟨lo, hlt, rfl, l3 lo hlt (le_refl _), hv⟩
    | true =>
      refine ⟨(pre.length : Int) + S.length,
        by simp only [qBinaryFind, e, if_pos hne, hd, hv]; rfl, ?_, fun h => absurd rfl h⟩
      constructor
      · intro h
        exact absurd rfl h
      · rintro ⟨x, hx, hxv⟩
        exfalso
        obtain ⟨i, hi, rfl⟩ := List.mem_iff_getElem.mp hx
        by_cases hil : i < lo
        · have := l2 i hi hil
          rw [hxv.1] at this
          exact absurd this (by decide)
        · by_cases hie : i = lo
          · subst hie
            rw [hxv.2] at hv
            exact absurd hv (by decide)
          · have := hP.le_trans (hsorted lo i hlt hi (by omega)) hxv.2
            rw [this] at hv
            exact absurd hv (by decide)

/-- Witness of C6, the scenario of the specification: on
`[1,1,2,3,4,5,5,6,9]` the search for `7` returns `end`. -/
theorem qBinaryFind_found_iff_witness :
    qBinaryFind (qLess (α := Nat)) [1, 1, 2, 3, 4, 5, 5, 6, 9] 0 9 7 = some 9 ∧
    ∃ r : Int, qBinaryFind (qLess (α := Nat)) ([] ++ [1, 1, 2, 3, 4, 5, 5, 6, 9] ++ []) 0
        (0 + 9) 7 = some r ∧
      (r ≠ (0 : Int) + 9 ↔ ∃ x, x ∈ [1, 1, 2, 3, 4, 5, 5, 6, 9] ∧ Equivalent qLess x 7) ∧
      (r ≠ (0 : Int) + 9 →
        ∃ k, ∃ hk : k < [1, 1, 2, 3, 4, 5, 5, 6, 9].length,
          r = (0 : Int) + k ∧ Equivalent qLess [1, 1, 2, 3, 4, 5, 5, 6, 9][k] 7) :=
  ⟨by decide, qBinaryFind_found_iff qLess_nat_strictWeakOrder [] [1, 1, 2, 3, 4, 5, 5, 6, 9] [] 7
    (by simp [qLess]) (by decide)⟩

/-- C7: when the distance `end - begin` is negative or greater than
`INT_MAX`, `qLowerBound` and `qUpperBound` (and their helpers) return
`begin`, whatever the predicate and the memory are; in particular on the
empty memory, where no position can be dereferenced. -/
theorem bound_helpers_distance_guard (P : α → α → Bool) (xs : List α) (begin end_ : Int)
    (v : α) (h : end_ - begin < 0 ∨ end_ - begin > INT_MAX) :
    qLowerBoundHelper P xs begin end_ v = some begin ∧
    qUpperBoundHelper P xs begin end_ v = some begin ∧
    qLowerBound P xs begin end_ v = some begin ∧
    qUpperBound P xs begin end_ v = some begin ∧
    qLowerBound P [] begin end_ v = some begin ∧
    qUpperBound P [] begin end_ v = some begin := by
  simp only [qLowerBound, qUpperBound, qLowerBoundHelper, qUpperBoundHelper, if_pos h, and_self]

/-- Witness of C7: the distance `3 - 5` is negative. -/
theorem bound_helpers_distance_guard_witness :
    qLowerBoundHelper (qLess (α := Nat)) [1, 2, 3] 5 3 2 = some 5 ∧
    qUpperBoundHelper (qLess (α := Nat)) [1, 2, 3] 5 3 2 = some 5 ∧
    qLowerBound (qLess (α := Nat)) [1, 2, 3] 5 3 2 = some 5 ∧
    qUpperBound (qLess (α := Nat)) [1, 2, 3] 5 3 2 = some 5 ∧
    qLowerBound (qLess (α := Nat)) [] 5 3 2 = some 5 ∧
    qUpperBound (qLess (α := Nat)) [] 5 3 2 = some 5 :=
  bound_helpers_distance_guard qLess [1, 2, 3] 5 3 2 (Or.inl (by decide))

/-- C8 fails on the code: with `begin = 1` and `end = 0` (distance `-1`) on
the memory `[7, 7]`, `qBinaryFind` for `7` dereferences `begin` and returns
`begin`, not `end`; on the empty memory the dereference of `begin` is
outside the sequence. The guarded helper `qBinaryFindHelper`, which the
public function does not call, returns `end` there. -/
theorem qBinaryFind_guard_divergence :
    qBinaryFind (qLess (α := Nat)) [7, 7] 1 0 7 = some 1 ∧
    qBinaryFind (qLess (α := Nat)) [] 1 0 7 = none ∧
    qBinaryFindHelper (qLess (α := Nat)) [7, 7] 1 0 7 = some 0 := by
  decide

/-- C9: for a strict weak ordering `<` and `!(max < min)`, `qBound(min, val,
max)` returns `min` when `val < min`, `max` when `max < val`, and `val`
otherwise; the result `r` satisfies `!(r < min)` and `!(max < r)`. -/
theorem qBound_clamps {lt : α → α → Bool} (hP : StrictWeakOrder lt) (min val max : α)
    (h : lt max min = false) :
    ∃ r, qBound lt min val max = Except.ok r ∧
      (lt val min = true → r = min) ∧ (lt max val = true → r = max) ∧
      (lt val min = false → lt max val = false → r = val) ∧
      lt r min = false ∧ lt max r = false := by
  have ha : Q_ASSERT (!lt max min) = Except.ok () := by simp [Q_ASSERT, h]
  cases h1 : lt val min with
  | true =>
    refine ⟨min, by simp [qBound, ha, h1], fun _ => rfl, ?_, ?_, hP.irrefl _, h⟩
    · intro h2
      have := hP.trans _ _ _ h2 h1
      rw [h] at this
      exact absurd this (by decide)
    · intro h2
      exact absurd h2 (by decide)
  | false =>
    cases h2 : lt max val with
    | true =>
      refine ⟨max, by simp [qBound, ha, h1, h2], ?_, fun _ => rfl, ?_, h, hP.irrefl _⟩
      · intro h3
        exact absurd h3 (by decide)
      · intro _ h3
        exact absurd h3 (by decide)
    | false =>
      exact ⟨val, by simp [qBound, ha, h1, h2], fun h3 => absurd h3 (by decide),
        fun h3 => absurd h3 (by decide), fun _ _ => rfl, h1, h2⟩

/-- Witness of C9: `qBound(2, 9, 5)` on the naturals. -/
theorem qBound_clamps_witness :
    ∃ r, qBound (qLess (α := Nat)) 2 9 5 = Except.ok r ∧
      (qLess 9 2 = true → r = 2) ∧ (qLess 5 9 = true → r = 5) ∧
      (qLess 9 2 = false → qLess 5 9 = false → r = 9) ∧
      qLess r 2 = false ∧ qLess 5 r = false :=
  qBound_clamps qLess_nat_strictWeakOrder 2 9 5 (by decide)

/-- C10: `qBound(min, val, max)` with `max < min` stops at the assertion and
yields no value; it fails if and only if `max < min`. -/
theorem qBound_assertion (lt : α → α → Bool) (min val max : α) :
    (lt max min = true → qBound lt min val max = Except.error QtFailure.assertFailed) ∧
    ((∃ e, qBound lt min val max = Except.error e) ↔ lt max min = true) ∧
    ((∃ r, qBound lt min val max = Except.ok r) ↔ lt max min = false) := by
  cases h : lt max min with
  | true =>
    have he : qBound lt min val max = Except.error QtFailure.assertFailed := by
      simp [qBound, Q_ASSERT, h]
    refine ⟨fun _ => he, ⟨fun _ => rfl, fun _ => ⟨_, he⟩⟩, ?_⟩
    constructor
    · rintro ⟨r, hr⟩
      rw [he] at hr
      cases hr
    · intro h2
      exact absurd h2 (by decide)
  | false =>
    have ho : ∃ r, qBound lt min val max = Except.ok r := by
      cases h1 : lt val min with
      | true => exact ⟨min, by simp [qBound, Q_ASSERT, h, h1]⟩
      | false =>
        cases h2 : lt max val with
        | true => exact ⟨max, by simp [qBound, Q_ASSERT, h, h1, h2]⟩
        | false => exact ⟨val, by simp [qBound, Q_ASSERT, h, h1, h2]⟩
    refine ⟨fun h2 => absurd h2 (by decide), ?_, ⟨fun _ => rfl, fun _ => ho⟩⟩
    constructor
    · rintro ⟨e, he⟩
      obtain ⟨r, hr⟩ := ho
      rw [hr] at he
      cases he
    · intro h2
      exact absurd h2 (by decide)

/-- Witness of C10: `qBound(5, 3, 2)` on the naturals fails. -/
theorem qBound_assertion_witness :
    qBound (qLess (α := Nat)) 5 3 2 = Except.error QtFailure.assertFailed :=
  (qBound_assertion (qLess (α := Nat)) 5 3 2).1 (by decide)

/-! ## The linear algorithms -/

theorem store_spec (xs : List α) (it : Int) (v : α) (h0 : 0 ≤ it) (h1 : it < xs.length) :
    ∃ ys, store xs it v = some ys ∧ ys.length = xs.length ∧ deref ys it = some v ∧
      ∀ p, p ≠ it → deref ys p = deref xs p := by
  obtain ⟨w, hw⟩ := deref_exists xs it h0 h1
  refine ⟨assign xs it v, by simp only [store, hw], length_assign _ _ _,
    deref_assign_same v h0 h1, ?_⟩
  intro p hp
  exact deref_assign_other v h0 (Ne.symm hp)

/-- Forward copy of `n` elements when no write reaches a source position
that is still to be read. -/
theorem qCopyLoop_spec : ∀ (n fuel : Nat) (xs : List α) (begin dest : Int), 0 ≤ begin →
    begin + n ≤ xs.length → 0 ≤ dest → dest + n ≤ xs.length →
    (dest ≤ begin ∨ begin + n ≤ dest) → n < fuel →
    ∃ ys, qCopyLoop fuel xs begin (begin + n) dest = some (ys, dest + n) ∧
      ys.length = xs.length ∧
      (∀ k : Int, 0 ≤ k → k < n → deref ys (dest + k) = deref xs (begin + k)) ∧
      (∀ p, p < dest ∨ dest + n ≤ p → deref ys p = deref xs p) := by
  intro n
  induction n with
  | zero =>
    intro fuel xs begin dest _ _ _ _ _ hf
    obtain ⟨f, rfl⟩ : ∃ f, fuel = f + 1 := ⟨fuel - 1, by omega⟩
    refine ⟨xs, by simp [qCopyLoop], rfl, ?_, fun _ _ => rfl⟩
    intro k h1 h2
    omega
  | succ m ih =>
    intro fuel xs begin dest hb hbe hd hde hdis hf
    obtain ⟨f, rfl⟩ : ∃ f, fuel = f + 1 := ⟨fuel - 1, by omega⟩
    have hne : begin ≠ begin + 1 + (m : Int) := by omega
    obtain ⟨v, hv⟩ := deref_exists xs begin hb (by omega)
    obtain ⟨xs1, e1, l1, s1, o1⟩ := store_spec xs dest v hd (by omega)
    obtain ⟨ys, e2, l2, c2, o2⟩ := ih f xs1 (begin + 1) (dest + 1) (by omega)
      (by rw [l1]; omega) (by omega) (by rw [l1]; omega) (by omega) (by omega)
    have hend : begin + ((m + 1 : Nat) : Int) = begin + 1 + (m : Int) := by omega
    have hdst : dest + ((m + 1 : Nat) : Int) = dest + 1 + (m : Int) := by omega
    refine ⟨ys, ?_, l2.trans l1, ?_, ?_⟩
    · rw [hend, hdst]
      simp only [qCopyLoop, if_pos hne, hv, e1, e2]
    · intro k hk1 hk2
      by_cases hk0 : k = 0
      · subst hk0
        rw [Int.add_zero, Int.add_zero, o2 dest (by omega), s1, hv]
      · have h := c2 (k - 1) (by omega) (by omega)
        have e3 : dest + 1 + (k - 1) = dest + k := by omega
        have e4 : begin + 1 + (k - 1) = begin + k := by omega
        rw [e3, e4] at h
        rw [h, o1 (begin + k) (by omega)]
    · intro p hp
      rw [o2 p (by omega), o1 p (by omega)]

/-- Backward copy of `n` elements to a destination that ends at or after
the end of the source. -/
theorem qCopyBackwardLoop_spec : ∀ (n fuel : Nat) (xs : List α) (begin dest : Int),
    0 ≤ begin → begin + n ≤ dest → dest ≤ xs.length → n < fuel →
    ∃ ys, qCopyBackwardLoop fuel xs begin (begin + n) dest = some (ys, dest - n) ∧
      ys.length = xs.length ∧
      (∀ k : Int, 0 ≤ k → k < n → deref ys (dest - n + k) = deref xs (begin + k)) ∧
      (∀ p, p < dest - n ∨ dest ≤ p → deref ys p = deref xs p) := by
  intro n
  induction n with
  | zero =>
    intro fuel xs begin dest _ _ _ hf
    obtain ⟨f, rfl⟩ : ∃ f, fuel = f + 1 := ⟨fuel - 1, by omega⟩
    refine ⟨xs, by simp [qCopyBackwardLoop], rfl, ?_, fun _ _ => rfl⟩
    intro k h1 h2
    omega
  | succ m ih =>
    intro fuel xs begin dest hb hbd hd hf
    obtain ⟨f, rfl⟩ : ∃ f, fuel = f + 1 := ⟨fuel - 1, by omega⟩
    have hne : begin ≠ begin + ((m + 1 : Nat) : Int) := by omega
    have hend : begin + ((m + 1 : Nat) : Int) - 1 = begin + (m : Int) := by omega
    have hdst0 : dest - ((m + 1 : Nat) : Int) = dest - 1 - (m : Int) := by omega
    obtain ⟨v, hv⟩ := deref_exists xs (begin + m) (by omega) (by omega)
    obtain ⟨xs1, e1, l1, s1, o1⟩ := store_spec xs (dest - 1) v (by omega)
      (by omega)
    obtain ⟨ys, e2, l2, c2, o2⟩ := ih f xs1 begin (dest - 1) hb (by omega)
      (by rw [l1]; omega) (by omega)
    have hdst : dest - ((m + 1 : Nat) : Int) = dest - 1 - (m : Int) := by omega
    refine ⟨ys, ?_, l2.trans l1, ?_, ?_⟩
    · rw [hdst]
      simp only [qCopyBackwardLoop, if_pos hne, hend, hv, e1, e2]
    · intro k hk1 hk2
      rw [hdst]
      by_cases hkm : k = m
      · have e3 : dest - 1 - (m : Int) + k = dest - 1 := by omega
        rw [e3, o2 (dest - 1) (by omega), s1, hkm, hv]
      · rw [c2 k hk1 (by omega), o1 (begin + k) (by omega)]
    · intro p hp
      rw [o2 p (by omega), o1 p (by omega)]

theorem qEqualLoop_spec (eq : α → α → Bool) : ∀ (n fuel : Nat) (xs : List α)
    (first1 first2 : Int), n < fuel →
    (∀ k : Int, 0 ≤ k → k < n → ∃ a b, deref xs (first1 + k) = some a ∧
      deref xs (first2 + k) = some b ∧ eq a b = true) →
    qEqualLoop eq fuel xs first1 (first1 + n) first2 = some true := by
  intro n
  induction n with
  | zero =>
    intro fuel xs first1 first2 hf _
    obtain ⟨f, rfl⟩ : ∃ f, fuel = f + 1 := ⟨fuel - 1, by omega⟩
    simp [qEqualLoop]
  | succ m ih =>
    intro fuel xs first1 first2 hf hall
    obtain ⟨f, rfl⟩ : ∃ f, fuel = f + 1 := ⟨fuel - 1, by omega⟩
    have hne : first1 ≠ first1 + 1 + (m : Int) := by omega
    obtain ⟨a, b, ha, hb, hab⟩ := hall 0 (le_refl _) (by omega)
    rw [Int.add_zero] at ha hb
    have hend : first1 + ((m + 1 : Nat) : Int) = first1 + 1 + (m : Int) := by omega
    have h := ih f xs (first1 + 1) (first2 + 1) (by omega) (by
      intro k hk1 hk2
      obtain ⟨a2, b2, ha2, hb2, hab2⟩ := hall (k + 1) (by omega) (by omega)
      refine ⟨a2, b2, ?_, ?_, hab2⟩
      · rw [← ha2]
        congr 1
        omega
      · rw [← hb2]
        congr 1
        omega)
    rw [hend]
    simp only [qEqualLoop, if_pos hne, ha, hb, hab, h]
    rfl

/-- The scan of `qFind` over a sequence stored between `pre` and `post`. -/
theorem qFindLoop_spec (eq : α → α → Bool) (val : α) (post : List α) :
    ∀ (S pre : List α) (fuel : Nat), S.length < fuel →
    ∃ k : Nat, qFindLoop eq fuel (pre ++ S ++ post) pre.length (pre.length + S.length) val
        = some ((pre.length : Int) + k) ∧ k ≤ S.length ∧
      (∀ j (hj : j < S.length), j < k → eq S[j] val = false) ∧
      (∀ hk : k < S.length, eq S[k] val = true) := by
  intro S
  induction S with
  | nil =>
    intro pre fuel hf
    obtain ⟨f, rfl⟩ : ∃ f, fuel = f + 1 := ⟨fuel - 1, by omega⟩
    refine ⟨0, by simp [qFindLoop], le_refl _, ?_, ?_⟩
    · intro j hj
      simp at hj
    · intro hk
      simp at hk
  | cons a T ih =>
    intro pre fuel hf
    obtain ⟨f, rfl⟩ : ∃ f, fuel = f + 1 := ⟨fuel - 1, by simp at hf; omega⟩
    have hne : (pre.length : Int) ≠ (pre.length : Int) + ((a :: T).length : Int) := by
      simp only [List.length_cons]
      omega
    have hd : deref (pre ++ (a :: T) ++ post) (pre.length : Int) = some a := by
      have := deref_middle pre (a :: T) post 0 (by simp)
      simpa using this
    cases hc : eq a val with
    | true =>
      refine ⟨0, ?_, Nat.zero_le _, ?_, fun _ => hc⟩
      · simp only [qFindLoop, if_pos hne, hd, hc]
        simp
      · intro j hj hj0
        omega
    | false =>
      obtain ⟨k, e, k1, k2, k3⟩ := ih (pre ++ [a]) f (by simp at hf; omega)
      have hmem : pre ++ [a] ++ T ++ post = pre ++ (a :: T) ++ post := by simp
      have hfirst : (((pre ++ [a]).length : Nat) : Int) = (pre.length : Int) + 1 := by simp
      have hlast : (pre.length : Int) + ((a :: T).length : Int)
          = (pre.length : Int) + 1 + (T.length : Int) := by
        simp only [List.length_cons]
        omega
      rw [hmem, hfirst] at e
      refine ⟨k + 1, ?_, by simp only [List.length_cons]; omega, ?_, ?_⟩
      · have hne2 : (pre.length : Int) ≠ (pre.length : Int) + 1 + (T.length : Int) := by omega
        rw [hlast]
        simp only [qFindLoop, if_pos hne2, hd, hc, e, Bool.not_false, if_true,
          Option.some.injEq]
        omega
      · intro j hj hjk
        cases j with
        | zero => exact hc
        | succ i => exact k2 i (by simpa using hj) (by omega)
      · intro hk
        exact k3 (by simpa using hk)

theorem lowerBoundSteps_fst (P : α → α → Bool) (xs : List α) (begin : Int) (v : α) :
    ∀ (fuel : Nat) (l r : Int),
      (lowerBoundSteps P xs begin v fuel l r).map Prod.fst = lowerBoundLoop P xs begin v fuel l r := by
  intro fuel
  induction fuel with
  | zero => intro l r; rfl
  | succ n ih =>
    intro l r
    simp only [lowerBoundSteps, lowerBoundLoop]
    split
    · cases deref xs (begin + Int.tdiv (l + r) 2) with
      | none => rfl
      | some x =>
        simp only [Option.map_map]
        split
        · rw [← ih]
          rfl
        · rw [← ih]
          rfl
    · rfl

theorem upperBoundSteps_fst (P : α → α → Bool) (xs : List α) (begin : Int) (v : α) :
    ∀ (fuel : Nat) (l r : Int),
      (upperBoundSteps P xs begin v fuel l r).map Prod.fst = upperBoundLoop P xs begin v fuel l r := by
  intro fuel
  induction fuel with
  | zero => intro l r; rfl
  | succ n ih =>
    intro l r
    simp only [upperBoundSteps, upperBoundLoop]
    split
    · cases deref xs (begin + Int.tdiv (l + r) 2) with
      | none => rfl
      | some x =>
        simp only [Option.map_map]
        split
        · rw [← ih]
          rfl
        · rw [← ih]
          rfl
    · rfl

theorem binaryFindSteps_fst (P : α → α → Bool) (xs : List α) (begin end_ : Int) (v : α) :
    ∀ (fuel : Nat) (l r : Int),
      (binaryFindSteps P xs begin end_ v fuel l r).map Prod.fst
        = binaryFindLoop P xs begin end_ v fuel l r := by
  intro fuel
  induction fuel with
  | zero => intro l r; rfl
  | succ n ih =>
    intro l r
    simp only [binaryFindSteps, binaryFindLoop]
    split
    · cases deref xs (begin + Int.tdiv (l + r) 2) with
      | none => rfl
      | some x =>
        simp only
        split
        · rw [Option.map_map, ← ih]
          rfl
        · split
          · rw [Option.map_map, ← ih]
            rfl
          · rfl
    · rfl

/-- The loop of `qLowerBoundHelper` on a range of fewer than `2 ^ f`
candidate positions runs its body at most `f` times, for every predicate. -/
theorem lowerBoundSteps_bound (P : α → α → Bool) (xs : List α) (begin n : Int) (v : α)
    (h0 : 0 ≤ begin) (hlen : begin + n ≤ xs.length) :
    ∀ (f fuel : Nat) (l r : Int), 0 ≤ l → l ≤ r + 1 → r < n → (r + 1 - l).toNat < 2 ^ f →
      f < fuel →
      ∃ k t, lowerBoundSteps P xs begin v fuel l r = some (k, t) ∧ t ≤ f ∧ l ≤ k ∧ k ≤ r + 1 := by
  intro f
  induction f with
  | zero =>
    intro fuel l r hl hlr hrn hs hf
    obtain ⟨g, rfl⟩ : ∃ g, fuel = g + 1 := ⟨fuel - 1, by omega⟩
    have hc : ¬ l ≤ r := by
      simp only [pow_zero] at hs
      omega
    exact ⟨l, 0, by simp only [lowerBoundSteps, if_neg hc], le_refl _, le_refl _, hlr⟩
  | succ f ih =>
    intro fuel l r hl hlr hrn hs hf
    obtain ⟨g, rfl⟩ : ∃ g, fuel = g + 1 := ⟨fuel - 1, by omega⟩
    by_cases hc : l ≤ r
    · have hm : Int.tdiv (l + r) 2 = (l + r) / 2 := Int.tdiv_eq_ediv (by omega) (by omega)
      have hp : 2 ^ (f + 1) = 2 * 2 ^ f := by rw [pow_succ]; omega
      rw [hp] at hs
      obtain ⟨x, hx⟩ := deref_exists xs (begin + (l + r) / 2) (by omega) (by omega)
      cases ht : P x v with
      | true =>
        obtain ⟨k, t, e, t1, k1, k2⟩ := ih g ((l + r) / 2 + 1) r (by omega) (by omega) hrn
          (by omega) (by omega)
        refine ⟨k, t + 1, ?_, by omega, by omega, by omega⟩
        simp only [lowerBoundSteps, if_pos hc, hm, hx, ht, if_true, e, Option.map_some']
      | false =>
        obtain ⟨k, t, e, t1, k1, k2⟩ := ih g l ((l + r) / 2 - 1) hl (by omega) (by omega)
          (by omega) (by omega)
        refine ⟨k, t + 1, ?_, by omega, by omega, by omega⟩
        simp [lowerBoundSteps, if_pos hc, hm, hx, ht, e]
    · exact ⟨l, 0, by simp only [lowerBoundSteps, if_neg hc], Nat.zero_le _, le_refl _, hlr⟩

/-- The loop of `qUpperBoundHelper` on a range of fewer than `2 ^ f`
candidate positions runs its body at most `f` times, for every predicate. -/
theorem upperBoundSteps_bound (P : α → α → Bool) (xs : List α) (begin n : Int) (v : α)
    (h0 : 0 ≤ begin) (hlen : begin + n ≤ xs.length) :
    ∀ (f fuel : Nat) (l r : Int), 0 ≤ l → l ≤ r + 1 → r < n → (r + 1 - l).toNat < 2 ^ f →
      f < fuel →
      ∃ k t, upperBoundSteps P xs begin v fuel l r = some (k, t) ∧ t ≤ f ∧ l ≤ k ∧ k ≤ r + 1 := by
  intro f
  induction f with
  | zero =>
    intro fuel l r hl hlr hrn hs hf
    obtain ⟨g, rfl⟩ : ∃ g, fuel = g + 1 := ⟨fuel - 1, by omega⟩
    have hc : ¬ l ≤ r := by
      simp only [pow_zero] at hs
      omega
    exact ⟨l, 0, by simp only [upperBoundSteps, if_neg hc], le_refl _, le_refl _, hlr⟩
  | succ f ih =>
    intro fuel l r hl hlr hrn hs hf
    obtain ⟨g, rfl⟩ : ∃ g, fuel = g + 1 := ⟨fuel - 1, by omega⟩
    by_cases hc : l ≤ r
    · have hm : Int.tdiv (l + r) 2 = (l + r) / 2 := Int.tdiv_eq_ediv (by omega) (by omega)
      have hp : 2 ^ (f + 1) = 2 * 2 ^ f := by rw [pow_succ]; omega
      rw [hp] at hs
      obtain ⟨x, hx⟩ := deref_exists xs (begin + (l + r) / 2) (by omega) (by omega)
      cases ht : P v x with
      | true =>
        obtain ⟨k, t, e, t1, k1, k2⟩ := ih g l ((l + r) / 2 - 1) hl (by omega) (by omega)
          (by omega) (by omega)
        refine ⟨k, t + 1, ?_, by omega, by omega, by omega⟩
        simp only [upperBoundSteps, if_pos hc, hm, hx, ht, if_true, e, Option.map_some']
      | false =>
        obtain ⟨k, t, e, t1, k1, k2⟩ := ih g ((l + r) / 2 + 1) r (by omega) (by omega) hrn
          (by omega) (by omega)
        refine ⟨k, t + 1, ?_, by omega, by omega, by omega⟩
        simp [upperBoundSteps, if_pos hc, hm, hx, ht, e]
    · exact ⟨l, 0, by simp only [upperBoundSteps, if_neg hc], Nat.zero_le _, le_refl _, hlr⟩

/-- The loop of `qBinaryFindHelper` on a range of fewer than `2 ^ f`
candidate positions runs its body at most `f` times, for every predicate;
it returns a position of the range or `end`. -/
theorem binaryFindSteps_bound (P : α → α → Bool) (xs : List α) (begin n : Int) (v : α)
    (h0 : 0 ≤ begin) (hlen : begin + n ≤ xs.length) :
    ∀ (f fuel : Nat) (l r : Int), 0 ≤ l → l ≤ r + 1 → r < n → (r + 1 - l).toNat < 2 ^ f →
      f < fuel →
      ∃ k t, binaryFindSteps P xs begin (begin + n) v fuel l r = some (k, t) ∧ t ≤ f ∧
        begin ≤ k ∧ k ≤ begin + n := by
  intro f
  induction f with
  | zero =>
    intro fuel l r hl hlr hrn hs hf
    obtain ⟨g, rfl⟩ : ∃ g, fuel = g + 1 := ⟨fuel - 1, by omega⟩
    have hc : ¬ l ≤ r := by
      simp only [pow_zero] at hs
      omega
    exact ⟨begin + n, 0, by simp only [binaryFindSteps, if_neg hc], le_refl _, by omega,
      le_refl _⟩
  | succ f ih =>
    intro fuel l r hl hlr hrn hs hf
    obtain ⟨g, rfl⟩ : ∃ g, fuel = g + 1 := ⟨fuel - 1, by omega⟩
    by_cases hc : l ≤ r
    · have hm : Int.tdiv (l + r) 2 = (l + r) / 2 := Int.tdiv_eq_ediv (by omega) (by omega)
      have hp : 2 ^ (f + 1) = 2 * 2 ^ f := by rw [pow_succ]; omega
      rw [hp] at hs
      obtain ⟨x, hx⟩ := deref_exists xs (begin + (l + r) / 2) (by omega) (by omega)
      cases ht : P x v with
      | true =>
        obtain ⟨k, t, e, t1, k1, k2⟩ := ih g ((l + r) / 2 + 1) r (by omega) (by omega) hrn
          (by omega) (by omega)
        refine ⟨k, t + 1, ?_, by omega, k1, k2⟩
        simp only [binaryFindSteps, if_pos hc, hm, hx, ht, if_true, e, Option.map_some']
      | false =>
        cases hu : P v x with
        | true =>
          obtain ⟨k, t, e, t1, k1, k2⟩ := ih g l ((l + r) / 2 - 1) hl (by omega) (by omega)
            (by omega) (by omega)
          refine ⟨k, t + 1, ?_, by omega, k1, k2⟩
          simp [binaryFindSteps, if_pos hc, hm, hx, ht, hu, e]
        | false =>
          refine ⟨begin + (l + r) / 2, 1, ?_, by omega, by omega, by omega⟩
          simp [binaryFindSteps, if_pos hc, hm, hx, ht, hu]
    · exact ⟨begin + n, 0, by simp only [binaryFindSteps, if_neg hc], Nat.zero_le _, by omega,
        le_refl _⟩

theorem lt_two_pow_iterationBound (n : Nat) : n < 2 ^ iterationBound n := by
  unfold iterationBound
  split
  · rename_i h
    subst h
    decide
  · exact Nat.lt_log2_self

theorem iterationBound_le (n : Nat) : iterationBound n ≤ n := by
  unfold iterationBound
  split
  · omega
  · rename_i h
    have := (Nat.log2_lt h).mpr (Nat.lt_two_pow n)
    omega

/-! ## `qSortHelper` under an arbitrary predicate -/

theorem swapIfLess_any (P : α → α → Bool) (xs : List α) (u d lo hi : Int) (h0 : 0 ≤ lo)
    (hlen : hi ≤ xs.length) (hlu : lo ≤ u) (huh : u < hi) (hld : lo ≤ d) (hdh : d < hi) :
    ∃ ys, swapIfLess P xs u d = some ys ∧ Shuffle xs ys lo hi := by
  obtain ⟨x, hx⟩ := deref_exists xs u (by omega) (by omega)
  obtain ⟨y, hy⟩ := deref_exists xs d (by omega) (by omega)
  cases hxy : P x y with
  | false => exact ⟨xs, by simp [swapIfLess, hx, hy, hxy], Shuffle.refl _ _ _⟩
  | true =>
    obtain ⟨ys, e, sh, -⟩ := qSwap_spec lo hi hy hx hld hdh hlu huh
    exact ⟨ys, by simp [swapIfLess, hx, hy, hxy, e], sh⟩

theorem pivotPrepare_any (P : α → α → Bool) (xs : List α) (start end_ middle : Int)
    (h0 : 0 ≤ start) (hse : start < end_) (hlen : end_ < xs.length)
    (hm : middle = (end_ + 1 - start) / 2) :
    ∃ ys, pivotPrepare P xs start end_ middle = some ys ∧ Shuffle xs ys start (end_ + 1) := by
  have hmid2 : Int.tdiv middle 2 = middle / 2 := Int.tdiv_eq_ediv (by omega) (by omega)
  by_cases hbig : middle > 256
  · obtain ⟨y1, e1, sh1⟩ := swapIfLess_any P xs (start + middle / 2) start start (end_ + 1) h0
      (by omega) (by omega) (by omega) (by omega) (by omega)
    obtain ⟨y2, e2, sh2⟩ := swapIfLess_any P y1 (end_ - middle / 2) (start + middle / 2) start
      (end_ + 1) h0 (by rw [sh1.length_eq]; omega) (by omega) (by omega) (by omega) (by omega)
    have sh12 := sh1.trans sh2
    obtain ⟨y3, e3, sh3⟩ := swapIfLess_any P y2 (start + middle / 2) start start (end_ + 1) h0
      (by rw [sh12.length_eq]; omega) (by omega) (by omega) (by omega) (by omega)
    have sh13 := sh12.trans sh3
    obtain ⟨y4, e4, sh4⟩ := swapIfLess_any P y3 end_ (end_ - middle / 2) start (end_ + 1) h0
      (by rw [sh13.length_eq]; omega) (by omega) (by omega) (by omega) (by omega)
    have sh14 := sh13.trans sh4
    obtain ⟨y5, e5, sh5⟩ := swapIfLess_any P y4 (end_ - middle / 2) (start + middle / 2) start
      (end_ + 1) h0 (by rw [sh14.length_eq]; omega) (by omega) (by omega) (by omega) (by omega)
    have sh15 := sh14.trans sh5
    obtain ⟨y6, e6, sh6⟩ := swapIfLess_any P y5 end_ (end_ - middle / 2) start (end_ + 1) h0
      (by rw [sh15.length_eq]; omega) (by omega) (by omega) (by omega) (by omega)
    refine ⟨y6, ?_, sh15.trans sh6⟩
    simp only [pivotPrepare, if_pos hbig, hmid2, e1, e2, e3, e4, e5, e6, Option.some_bind,
      Option.bind_eq_bind]
  · obtain ⟨y1, e1, sh1⟩ := swapIfLess_any P xs (start + middle) start start (end_ + 1) h0
      (by omega) (by omega) (by omega) (by omega) (by omega)
    obtain ⟨y2, e2, sh2⟩ := swapIfLess_any P y1 end_ (start + middle) start (end_ + 1) h0
      (by rw [sh1.length_eq]; omega) (by omega) (by omega) (by omega) (by omega)
    have sh12 := sh1.trans sh2
    obtain ⟨y3, e3, sh3⟩ := swapIfLess_any P y2 (start + middle) start start (end_ + 1) h0
      (by rw [sh12.length_eq]; omega) (by omega) (by omega) (by omega) (by omega)
    refine ⟨y3, ?_, sh12.trans sh3⟩
    simp only [pivotPrepare, if_neg hbig, e1, e2, e3, Option.some_bind, Option.bind_eq_bind]

theorem partitionLoop_any (P : α → α → Bool) (start end_ : Int) (h0 : 0 ≤ start) :
    ∀ (fuel : Nat) (xs : List α) (low high : Int), end_ < xs.length → start ≤ low →
      low ≤ high → high < end_ → (high - low).toNat + 1 ≤ fuel →
      ∃ ys p, partitionLoop P start end_ end_ fuel xs low high = some (ys, p) ∧
        Shuffle xs ys start end_ ∧ start < p ∧ p ≤ end_ := by
  intro fuel
  induction fuel with
  | zero => intro xs low high _ _ _ _ h; omega
  | succ n ih =>
    intro xs low high hlen hsl hlh hhe hf
    obtain ⟨pv, hpv⟩ := deref_exists xs end_ (by omega) hlen
    obtain ⟨low2, e1, l1, l2, -, -⟩ := advanceLow_spec P hpv (by omega : end_ ≤ xs.length)
      ((end_ - start).toNat + 1) low (by omega) (by omega) (by omega)
    obtain ⟨high2, e2, g1, g2, -, -⟩ := retreatHigh_spec P hpv h0
      ((end_ - start).toNat + 1) high (by omega) (by omega)
    by_cases hbr : low2 ≥ high2
    · exact ⟨xs, low2, by simp only [partitionLoop, e1, e2, if_pos hbr], Shuffle.refl _ _ _,
        by omega, by omega⟩
    · obtain ⟨a2, ha2⟩ := deref_exists xs low2 (by omega) (by omega)
      obtain ⟨b2, hb2⟩ := deref_exists xs high2 (by omega) (by omega)
      obtain ⟨ys, e3, sh, -⟩ := qSwap_spec start end_ ha2 hb2
        (by omega) (by omega) (by omega) (by omega)
      obtain ⟨zs, p, e4, sh2, p1, p2⟩ := ih ys low2 (high2 - 1)
        (by rw [sh.length_eq]; exact hlen) (by omega) (by omega) (by omega) (by omega)
      exact ⟨zs, p, by simp only [partitionLoop, e1, e2, if_neg hbr, e3, e4], sh.trans sh2,
        p1, p2⟩

theorem pivotPlace_any (xs : List α) (start e p : Int) (hlen : e < xs.length)
    (hsp : start < p) (hpe : p ≤ e) (h0 : 0 ≤ start) :
    ∃ zs, (if p ≠ e then (qSwap xs p e).map fun ys => (ys, p) else some (xs, e)) = some (zs, p) ∧
      Shuffle xs zs start (e + 1) := by
  by_cases hne : p ≠ e
  · obtain ⟨a, ha⟩ := deref_exists xs p (by omega) (by omega)
    obtain ⟨b, hb⟩ := deref_exists xs e (by omega) (by omega)
    obtain ⟨zs, e1, sh, -⟩ := qSwap_spec start (e + 1) ha hb
      (by omega) (by omega) (by omega) (by omega)
    exact ⟨zs, by simp only [if_pos hne, e1, Option.map_some'], sh⟩
  · have hpe2 : p = e := by omega
    subst hpe2
    exact ⟨xs, by simp, Shuffle.refl _ _ _⟩

/-- For every predicate `qSortHelper` runs to its end on a range of `d`
elements with `max 1 (d - 1)` nested activations and rearranges the range. -/
theorem qSortHelper_any (P : α → α → Bool) :
    ∀ (fuel : Nat) (xs : List α) (start end_ : Int), 0 ≤ start → end_ ≤ xs.length →
      1 ≤ fuel → (end_ - start).toNat ≤ fuel + 1 →
      ∃ ys, qSortHelper P fuel xs start end_ = some ys ∧ Shuffle xs ys start end_ := by
  intro fuel
  induction fuel with
  | zero => intro xs start end_ _ _ h; omega
  | succ n ih =>
    intro xs start end_ h0 hlen _ hf
    by_cases hd : end_ - start < 2
    · exact ⟨xs, by simp only [qSortHelper, if_pos hd], Shuffle.refl _ _ _⟩
    · obtain ⟨e, he⟩ : ∃ e, end_ = e + 1 := ⟨end_ - 1, by omega⟩
      subst he
      have hmid : Int.tdiv (e + 1 - start) 2 = (e + 1 - start) / 2 :=
        Int.tdiv_eq_ediv (by omega) (by omega)
      obtain ⟨ys1, e1, sh1⟩ := pivotPrepare_any P xs start e ((e + 1 - start) / 2) h0
        (by omega) (by omega) rfl
      obtain ⟨ys2, p, e2, sh2, p1, p2⟩ := partitionLoop_any P start e h0
        ((e + 1 - start).toNat + 1) ys1 start (e - 1) (by rw [sh1.length_eq]; omega)
        (by omega) (by omega) (by omega) (by omega)
      have hlen2 : ys2.length = xs.length := sh2.length_eq.trans sh1.length_eq
      obtain ⟨zs, e3, sh3⟩ := pivotPlace_any ys2 start e p (by rw [hlen2]; omega) p1 p2 h0
      have hlen3 : zs.length = xs.length := sh3.length_eq.trans hlen2
      obtain ⟨ws, e4, sh4⟩ : ∃ ws,
          (if p > start + 1 then qSortHelper P n zs start p else some zs) = some ws ∧
          Shuffle zs ws start p := by
        by_cases hc : p > start + 1
        · obtain ⟨ws, e4, sh4⟩ := ih zs start p h0 (by rw [hlen3]; omega) (by omega) (by omega)
          exact ⟨ws, by simp only [if_pos hc, e4], sh4⟩
        · exact ⟨zs, by simp only [if_neg hc], Shuffle.refl _ _ _⟩
      have hlen4 : ws.length = xs.length := sh4.length_eq.trans hlen3
      obtain ⟨vs, e5, sh5⟩ : ∃ vs,
          (if e + 1 > p + 1 then qSortHelper P n ws (p + 1) (e + 1) else some ws) = some vs ∧
          Shuffle ws vs (p + 1) (e + 1) := by
        by_cases hc : e + 1 > p + 1
        · obtain ⟨vs, e5, sh5⟩ := ih ws (p + 1) (e + 1) (by omega) (by rw [hlen4]; omega)
            (by omega) (by omega)
          exact ⟨vs, by simp only [if_pos hc, e5], sh5⟩
        · exact ⟨ws, by simp only [if_neg hc], Shuffle.refl _ _ _⟩
      refine ⟨vs, ?_, ?_⟩
      · simp only [qSortHelper, if_neg hd, Int.add_sub_cancel, hmid, e1, e2, e3, e4, e5]
      · exact (((sh1.trans (sh2.widen (le_refl _) (by omega))).trans sh3).trans
          (sh4.widen (le_refl _) (by omega))).trans (sh5.widen (by omega) (le_refl _))

/-! ## Recursion depth on increasing input -/

theorem swapIfLess_noop (P : α → α → Bool) {xs : List α} {u d : Int} {x y : α}
    (hu : deref xs u = some x) (hd : deref xs d = some y) (h : P x y = false) :
    swapIfLess P xs u d = some xs := by
  simp [swapIfLess, hu, hd, h]

/-- On a range whose elements increase strictly, `qSortHelper` needs as
many nested activations as the range has elements, less one: with fewer it
does not run to its end. -/
theorem increasing_needs_depth (P : α → α → Bool) (xs : List α)
    (hinc : ∀ i j a b, 0 ≤ i → i < j → deref xs i = some a → deref xs j = some b →
      P a b = true ∧ P b a = false) :
    ∀ (f : Nat) (end_ : Int), end_ ≤ xs.length → (f : Int) + 1 < end_ →
      qSortHelper P f xs 0 end_ = none := by
  intro f
  induction f with
  | zero => intro end_ _ _; rfl
  | succ n ih =>
    intro end_ hlen hf
    obtain ⟨e, he⟩ : ∃ e, end_ = e + 1 := ⟨end_ - 1, by omega⟩
    subst he
    have hd : ¬ (e + 1 - 0 < 2) := by omega
    have hmid : Int.tdiv (e + 1 - 0) 2 = (e + 1) / 2 := by
      rw [Int.sub_zero]
      exact Int.tdiv_eq_ediv (by omega) (by omega)
    have hget : ∀ i, 0 ≤ i → i ≤ e → ∃ a, deref xs i = some a :=
      fun i h1 h2 => deref_exists xs i h1 (by omega)
    have hno : ∀ u d, 0 ≤ d → d < u → u ≤ e → swapIfLess P xs u d = some xs := by
      intro u d h1 h2 h3
      obtain ⟨x, hx⟩ := hget u (by omega) h3
      obtain ⟨y, hy⟩ := hget d h1 (by omega)
      exact swapIfLess_noop P hx hy (hinc d u y x h1 h2 hy hx).2
    have hprep : pivotPrepare P xs 0 e ((e + 1) / 2) = some xs := by
      have hm2 : Int.tdiv ((e + 1) / 2) 2 = (e + 1) / 2 / 2 :=
        Int.tdiv_eq_ediv (by omega) (by omega)
      by_cases hbig : (e + 1) / 2 > 256
      · simp only [pivotPrepare, if_pos hbig, hm2,
          hno (0 + (e + 1) / 2 / 2) 0 (le_refl _) (by omega) (by omega),
          hno (e - (e + 1) / 2 / 2) (0 + (e + 1) / 2 / 2) (by omega) (by omega) (by omega),
          hno e (e - (e + 1) / 2 / 2) (by omega) (by omega) (le_refl _),
          Option.some_bind, Option.bind_eq_bind]
      · simp only [pivotPrepare, if_neg hbig,
          hno (0 + (e + 1) / 2) 0 (le_refl _) (by omega) (by omega),
          hno e (0 + (e + 1) / 2) (by omega) (by omega) (le_refl _),
          Option.some_bind, Option.bind_eq_bind]
    obtain ⟨pv, hpv⟩ := hget e (by omega) (le_refl _)
    have hlow : advanceLow P xs e e ((e - 0).toNat + 1) 0 = some e := by
      obtain ⟨low2, e1, l1, l2, l3, l4⟩ := advanceLow_spec P hpv (by omega : e ≤ xs.length)
        ((e - 0).toNat + 1) 0 (le_refl _) (by omega) (by omega)
      have : low2 = e := by
        by_contra hne
        have hlt : low2 < e := by omega
        obtain ⟨a, ha⟩ := hget low2 (by omega) (by omega)
        have h1 := l4 hlt a ha
        rw [(hinc low2 e a pv (by omega) hlt ha hpv).1] at h1
        exact absurd h1 (by decide)
      rw [this] at e1
      exact e1
    have hhigh : retreatHigh P xs 0 e ((e - 0).toNat + 1) (e - 1) = some (e - 1) := by
      obtain ⟨high2, e1, g1, g2, g3, g4⟩ := retreatHigh_spec P hpv (le_refl _)
        ((e - 0).toNat + 1) (e - 1) (by omega) (by omega)
      have : high2 = e - 1 := by
        by_contra hne
        have hlt : high2 < e - 1 := by omega
        obtain ⟨a, ha⟩ := hget (e - 1) (by omega) (by omega)
        have h1 := g3 (e - 1) hlt (le_refl _) a ha
        rw [(hinc (e - 1) e a pv (by omega) (by omega) ha hpv).2] at h1
        exact absurd h1 (by decide)
      rw [this] at e1
      exact e1
    have hpart : partitionLoop P 0 e e ((e + 1 - 0).toNat + 1) xs 0 (e - 1) = some (xs, e) := by
      have hbr : e ≥ e - 1 := by omega
      simp only [partitionLoop, hlow, hhigh, if_pos hbr]
    have hrec : qSortHelper P n xs 0 e = none := ih e (by omega) (by omega)
    have hgt : e > 0 + 1 := by omega
    simp only [qSortHelper, if_neg hd, Int.add_sub_cancel, hmid, hprep, hpart, ne_eq,
      not_true_eq_false, if_false, if_pos hgt, hrec]

theorem deref_range (N : Nat) (i : Int) (a : Nat) (h : deref (List.range N) i = some a) :
    (a : Int) = i := by
  obtain ⟨h0, h1⟩ := deref_some_iff.mp h
  obtain ⟨hlt, heq⟩ := List.getElem?_eq_some_iff.mp h1
  rw [List.getElem_range] at heq
  omega

theorem range_needs_depth (N f : Nat) (hf : f + 1 < N) :
    qSortHelper (qLess (α := Nat)) f (List.range N) 0 N = none := by
  apply increasing_needs_depth qLess (List.range N) _ f N (by simp) (by omega)
  intro i j a b h0 hij ha hb
  have h1 := deref_range N i a ha
  have h2 := deref_range N j b hb
  simp only [qLess, decide_eq_true_eq, decide_eq_false_iff_not, not_lt]
  omega

/-- No constant `c` makes `c * (log2 n + 1)` exceed `n - 2` for every `n`. -/
theorem log_bound_exceeded (c : Nat) :
    ∃ N : Nat, c * (Nat.log2 N + 1) + 1 < N := by
  refine ⟨2 ^ (2 * c + 2), ?_⟩
  have hN : (2 : Nat) ^ (2 * c + 2) ≠ 0 := by positivity
  have hlog : Nat.log2 (2 ^ (2 * c + 2)) < 2 * c + 3 :=
    (Nat.log2_lt hN).mpr (Nat.pow_lt_pow_right (by decide) (by omega))
  have ha : c < 2 ^ c := Nat.lt_two_pow c
  have hsq : (2 : Nat) ^ (2 * c + 2) = 4 * (2 ^ c * 2 ^ c) := by
    have h2 : 2 * c + 2 = (c + 1) + (c + 1) := by omega
    rw [h2, pow_add, pow_succ]
    ring
  have hmul : c * (Nat.log2 (2 ^ (2 * c + 2)) + 1) ≤ c * (2 * c + 3) :=
    Nat.mul_le_mul_left c (by omega)
  rw [hsq] at hmul ⊢
  nlinarith [Nat.mul_le_mul ha.le ha.le, Nat.mul_le_mul (Nat.succ_le_of_lt ha) (Nat.succ_le_of_lt ha)]

/-- C11: for a source of `n` elements and a destination of `n` positions
that does not overlap it, `qCopy(begin, end, dest)` returns `dest + n`, the
destination then holds the elements of the source in order, every other
position is unchanged, and with a reflexive `==` the following
`qEqual(begin, end, dest)` returns true. -/
theorem qCopy_then_qEqual (eq : α → α → Bool) (hrefl : ∀ a, eq a a = true) (xs : List α)
    (begin dest : Int) (n : Nat) (hb : 0 ≤ begin) (hbe : begin + n ≤ xs.length)
    (hd : 0 ≤ dest) (hde : dest + n ≤ xs.length)
    (hdis : dest + n ≤ begin ∨ begin + n ≤ dest) :
    ∃ ys, qCopy xs begin (begin + n) dest = some (ys, dest + n) ∧ ys.length = xs.length ∧
      (∀ k : Int, 0 ≤ k → k < n → deref ys (dest + k) = deref xs (begin + k)) ∧
      (∀ p, p < dest ∨ dest + n ≤ p → deref ys p = deref xs p) ∧
      qEqual eq ys begin (begin + n) dest = some true := by
  have hfuel : (begin + (n : Int) - begin).toNat + 1 = n + 1 := by omega
  obtain ⟨ys, e, l, c, o⟩ := qCopyLoop_spec n (n + 1) xs begin dest hb hbe hd hde
    (by omega) (by omega)
  refine ⟨ys, by simp only [qCopy, hfuel, e], l, c, o, ?_⟩
  simp only [qEqual, hfuel]
  apply qEqualLoop_spec eq n (n + 1) ys begin dest (by omega)
  intro k hk1 hk2
  obtain ⟨a, ha⟩ := deref_exists xs (begin + k) (by omega) (by omega)
  refine ⟨a, a, ?_, ?_, hrefl a⟩
  · rw [o (begin + k) (by omega), ha]
  · rw [c k hk1 hk2, ha]

/-- Witness of C11: three elements copied behind themselves. -/
theorem qCopy_then_qEqual_witness :
    ∃ ys, qCopy [1, 2, 3, 0, 0, 0] 0 ((0 : Int) + ((3 : Nat) : Int)) 3
        = some (ys, (3 : Int) + ((3 : Nat) : Int)) ∧
      ys.length = [1, 2, 3, 0, 0, 0].length ∧
      (∀ k : Int, 0 ≤ k → k < ((3 : Nat) : Int) →
        deref ys (3 + k) = deref [1, 2, 3, 0, 0, 0] (0 + k)) ∧
      (∀ p : Int, p < 3 ∨ (3 : Int) + ((3 : Nat) : Int) ≤ p →
        deref ys p = deref [1, 2, 3, 0, 0, 0] p) ∧
      qEqual (fun a b : Nat => a == b) ys 0 ((0 : Int) + ((3 : Nat) : Int)) 3 = some true :=
  qCopy_then_qEqual (fun a b : Nat => a == b) (by simp) [1, 2, 3, 0, 0, 0] 0 3 3 (by decide)
    (by decide) (by decide) (by decide) (by decide)

/-- C12: for an array and `b ≤ e ≤ d ≤ |A|`, `qCopyBackward(A + b, A + e,
A + d)` returns `A + d - (e - b)`; the destination `[d - (e - b), d)` then
holds the original elements of the source `[b, e)` in their order, also
when the two ranges overlap, and the positions outside the destination are
unchanged. -/
theorem qCopyBackward_overlap (xs : List α) (b e d : Int) (hb : 0 ≤ b) (hbe : b ≤ e)
    (hed : e ≤ d) (hd : d ≤ xs.length) :
    ∃ ys, qCopyBackward xs b e d = some (ys, d - (e - b)) ∧ ys.length = xs.length ∧
      (∀ k : Int, 0 ≤ k → k < e - b → deref ys (d - (e - b) + k) = deref xs (b + k)) ∧
      (∀ p, p < d - (e - b) ∨ d ≤ p → deref ys p = deref xs p) := by
  obtain ⟨n, rfl⟩ : ∃ n : Nat, e = b + n := ⟨(e - b).toNat, by omega⟩
  have hfuel : (b + (n : Int) - b).toNat + 1 = n + 1 := by omega
  have hlen : b + (n : Int) - b = n := by omega
  obtain ⟨ys, e1, l, c, o⟩ := qCopyBackwardLoop_spec n (n + 1) xs b d hb hed hd (by omega)
  rw [hlen]
  exact ⟨ys, by simp only [qCopyBackward, hfuel, e1], l, c, o⟩

/-- Witness of C12: `[1, 2, 3, 4]` moved one position up inside
`[1, 2, 3, 4, 0]`, source and destination overlapping. -/
theorem qCopyBackward_overlap_witness :
    ∃ ys, qCopyBackward [1, 2, 3, 4, 0] 0 4 5 = some (ys, 5 - (4 - 0)) ∧
      ys.length = [1, 2, 3, 4, 0].length ∧
      (∀ k : Int, 0 ≤ k → k < 4 - 0 →
        deref ys (5 - (4 - 0) + k) = deref [1, 2, 3, 4, 0] (0 + k)) ∧
      (∀ p, p < 5 - (4 - 0) ∨ 5 ≤ p → deref ys p = deref [1, 2, 3, 4, 0] p) :=
  qCopyBackward_overlap [1, 2, 3, 4, 0] 0 4 5 (by decide) (by decide) (by decide) (by decide)

/-- C13: `qFind(first, last, val)` returns the first position whose element
equals `val`: no earlier position holds an equal element; it returns `last`
exactly when no element of the range equals `val`, and so `first` on an
empty range. -/
theorem qFind_first_equal (eq : α → α → Bool) (pre S post : List α) (val : α) :
    ∃ k : Nat, qFind eq (pre ++ S ++ post) pre.length (pre.length + S.length) val
        = some ((pre.length : Int) + k) ∧ k ≤ S.length ∧
      (∀ j (hj : j < S.length), j < k → eq S[j] val = false) ∧
      (∀ hk : k < S.length, eq S[k] val = true) ∧
      (k = S.length ↔ ∀ x, x ∈ S → eq x val = false) ∧
      (S = [] → k = 0) := by
  have hfuel : ((pre.length : Int) + S.length - pre.length).toNat + 1 = S.length + 1 := by
    omega
  obtain ⟨k, e, k1, k2, k3⟩ := qFindLoop_spec eq val post S pre (S.length + 1) (by omega)
  refine ⟨k, by simp only [qFind, hfuel, e], k1, k2, k3, ?_, ?_⟩
  · constructor
    · intro hk x hx
      obtain ⟨i, hi, rfl⟩ := List.mem_iff_getElem.mp hx
      exact k2 i hi (by omega)
    · intro hall
      by_contra hne
      have hk : k < S.length := by omega
      have := k3 hk
      rw [hall _ (List.getElem_mem hk)] at this
      exact absurd this (by decide)
  · intro hS
    subst hS
    simpa using k1

/-- C15, as stated, fails: on `[1,1,2,3,4,5,5,6,9]` the lower bound of `5`
is not the position at index 4, which holds `4`. -/
theorem qLowerBound_scenario_counterexample :
    qLowerBound (qLess (α := Nat)) [1, 1, 2, 3, 4, 5, 5, 6, 9] 0 9 5 ≠ some 4 ∧
    deref [1, 1, 2, 3, 4, 5, 5, 6, 9] 4 = some 4 := by
  decide

/-- C15, amended: on `[1,1,2,3,4,5,5,6,9]`, the result of sorting
`[5,3,1,4,1,5,9,2,6]` with less-than, `qLowerBound` for `5` returns the
position at index 5, which is the index of the first `5`. -/
theorem qLowerBound_scenario :
    qSort (qLess (α := Nat)) [5, 3, 1, 4, 1, 5, 9, 2, 6] 0 9
      = some [1, 1, 2, 3, 4, 5, 5, 6, 9] ∧
    qLowerBound (qLess (α := Nat)) [1, 1, 2, 3, 4, 5, 5, 6, 9] 0 9 5 = some 5 ∧
    deref [1, 1, 2, 3, 4, 5, 5, 6, 9] 5 = some 5 ∧
    ∀ i : Fin 5, [1, 1, 2, 3, 4, 5, 5, 6, 9][i.val]? ≠ some 5 := by
  decide

/-- C16, as stated, fails: on `[1,1,2,3,4,5,5,6,9]` the upper bound of `5`
is not the position at index 6, which holds the second `5`. -/
theorem qUpperBound_scenario_counterexample :
    qUpperBound (qLess (α := Nat)) [1, 1, 2, 3, 4, 5, 5, 6, 9] 0 9 5 ≠ some 6 ∧
    deref [1, 1, 2, 3, 4, 5, 5, 6, 9] 6 = some 5 := by
  decide

/-- C16, amended: on `[1,1,2,3,4,5,5,6,9]`, the result of sorting
`[5,3,1,4,1,5,9,2,6]` with less-than, `qUpperBound` for `5` returns the
position at index 7, the first position whose element is greater than `5`. -/
theorem qUpperBound_scenario :
    qSort (qLess (α := Nat)) [5, 3, 1, 4, 1, 5, 9, 2, 6] 0 9
      = some [1, 1, 2, 3, 4, 5, 5, 6, 9] ∧
    qUpperBound (qLess (α := Nat)) [1, 1, 2, 3, 4, 5, 5, 6, 9] 0 9 5 = some 7 ∧
    deref [1, 1, 2, 3, 4, 5, 5, 6, 9] 7 = some 6 ∧
    ∀ i : Fin 7, ∀ a, [1, 1, 2, 3, 4, 5, 5, 6, 9][i.val]? = some a → qLess 5 a = false := by
  refine ⟨by decide, by decide, by decide, ?_⟩
  decide

/-- C18: for every sequence of `n ≤ INT_MAX` elements, sorted or not, every
value and every Boolean predicate, the loops of `qLowerBoundHelper`,
`qUpperBoundHelper` and `qBinaryFindHelper` end after at most
`floor(log2 n) + 1` executions of their body (none when `n = 0`) and the
helpers return a position of `[begin, end]`. The memory is the sequence
alone, so that a dereference outside `[begin, end)` would fail. -/
theorem search_loops_bounded (P : α → α → Bool) (S : List α) (v : α)
    (hn : (S.length : Int) ≤ INT_MAX) :
    (∃ k t, lowerBoundSteps P S 0 v (S.length + 1) 0 ((S.length : Int) - 1) = some (k, t) ∧
      t ≤ iterationBound S.length ∧ 0 ≤ k ∧ k ≤ S.length ∧
      qLowerBoundHelper P S 0 S.length v = some (0 + k)) ∧
    (∃ k t, upperBoundSteps P S 0 v (S.length + 1) 0 ((S.length : Int) - 1) = some (k, t) ∧
      t ≤ iterationBound S.length ∧ 0 ≤ k ∧ k ≤ S.length ∧
      qUpperBoundHelper P S 0 S.length v = some (0 + k)) ∧
    (∃ k t, binaryFindSteps P S 0 S.length v (S.length + 1) 0 ((S.length : Int) - 1)
        = some (k, t) ∧
      t ≤ iterationBound S.length ∧ 0 ≤ k ∧ k ≤ S.length ∧
      qBinaryFindHelper P S 0 S.length v = some k) := by
  have hd : (S.length : Int) - 0 = S.length := by omega
  have hg : ¬ ((S.length : Int) < 0 ∨ (S.length : Int) > INT_MAX) := by omega
  have hsize : ((S.length : Int) - 1 + 1 - 0).toNat < 2 ^ iterationBound S.length := by
    have := lt_two_pow_iterationBound S.length
    omega
  have hfuel : iterationBound S.length < S.length + 1 := by
    have := iterationBound_le S.length
    omega
  refine ⟨?_, ?_, ?_⟩
  · obtain ⟨k, t, e, t1, k1, k2⟩ := lowerBoundSteps_bound P S 0 S.length v (le_refl _)
      (by omega) (iterationBound S.length) (S.length + 1) 0 ((S.length : Int) - 1)
      (le_refl _) (by omega) (by omega) hsize hfuel
    refine ⟨k, t, e, t1, k1, by omega, ?_⟩
    simp only [qLowerBoundHelper, hd, if_neg hg, Int.toNat_ofNat, ← lowerBoundSteps_fst, e,
      Option.map_some']
  · obtain ⟨k, t, e, t1, k1, k2⟩ := upperBoundSteps_bound P S 0 S.length v (le_refl _)
      (by omega) (iterationBound S.length) (S.length + 1) 0 ((S.length : Int) - 1)
      (le_refl _) (by omega) (by omega) hsize hfuel
    refine ⟨k, t, e, t1, k1, by omega, ?_⟩
    simp only [qUpperBoundHelper, hd, if_neg hg, Int.toNat_ofNat, ← upperBoundSteps_fst, e,
      Option.map_some']
  · obtain ⟨k, t, e, t1, k1, k2⟩ := binaryFindSteps_bound P S 0 S.length v (le_refl _)
      (by omega) (iterationBound S.length) (S.length + 1) 0 ((S.length : Int) - 1)
      (le_refl _) (by omega) (by omega) hsize hfuel
    rw [Int.zero_add] at e k2
    refine ⟨k, t, e, t1, k1, k2, ?_⟩
    simp only [qBinaryFindHelper, hd, if_neg hg, Int.toNat_ofNat, ← binaryFindSteps_fst, e,
      Option.map_some']

/-- Witness of C18: the nine elements `[5,3,1,4,1,5,9,2,6]`, not sorted,
searched for `5` with less-than. -/
theorem search_loops_bounded_witness :
    (∃ k t, lowerBoundSteps (qLess (α := Nat)) [5, 3, 1, 4, 1, 5, 9, 2, 6] 0 5
        ([5, 3, 1, 4, 1, 5, 9, 2, 6].length + 1) 0
        (([5, 3, 1, 4, 1, 5, 9, 2, 6].length : Int) - 1) = some (k, t) ∧
      t ≤ iterationBound [5, 3, 1, 4, 1, 5, 9, 2, 6].length ∧ 0 ≤ k ∧
      k ≤ [5, 3, 1, 4, 1, 5, 9, 2, 6].length ∧
      qLowerBoundHelper (qLess (α := Nat)) [5, 3, 1, 4, 1, 5, 9, 2, 6] 0
        [5, 3, 1, 4, 1, 5, 9, 2, 6].length 5 = some (0 + k)) ∧
    (∃ k t, upperBoundSteps (qLess (α := Nat)) [5, 3, 1, 4, 1, 5, 9, 2, 6] 0 5
        ([5, 3, 1, 4, 1, 5, 9, 2, 6].length + 1) 0
        (([5, 3, 1, 4, 1, 5, 9, 2, 6].length : Int) - 1) = some (k, t) ∧
      t ≤ iterationBound [5, 3, 1, 4, 1, 5, 9, 2, 6].length ∧ 0 ≤ k ∧
      k ≤ [5, 3, 1, 4, 1, 5, 9, 2, 6].length ∧
      qUpperBoundHelper (qLess (α := Nat)) [5, 3, 1, 4, 1, 5, 9, 2, 6] 0
        [5, 3, 1, 4, 1, 5, 9, 2, 6].length 5 = some (0 + k)) ∧
    (∃ k t, binaryFindSteps (qLess (α := Nat)) [5, 3, 1, 4, 1, 5, 9, 2, 6] 0
        [5, 3, 1, 4, 1, 5, 9, 2, 6].length 5
        ([5, 3, 1, 4, 1, 5, 9, 2, 6].length + 1) 0
        (([5, 3, 1, 4, 1, 5, 9, 2, 6].length : Int) - 1) = some (k, t) ∧
      t ≤ iterationBound [5, 3, 1, 4, 1, 5, 9, 2, 6].length ∧ 0 ≤ k ∧
      k ≤ [5, 3, 1, 4, 1, 5, 9, 2, 6].length ∧
      qBinaryFindHelper (qLess (α := Nat)) [5, 3, 1, 4, 1, 5, 9, 2, 6] 0
        [5, 3, 1, 4, 1, 5, 9, 2, 6].length 5 = some k) :=
  search_loops_bounded qLess [5, 3, 1, 4, 1, 5, 9, 2, 6] 5 (by decide)

/-- For every predicate and every input of `n` elements `qSortHelper` runs
to its end with at most `n - 1` nested activations, one for `n < 2`: each
recursive call gets a shorter range. -/
theorem recursion_depth_linear (P : α → α → Bool) (pre S post : List α) :
    CompletesWithinDepth P (max 1 (S.length - 1)) (pre ++ S ++ post) pre.length
      (pre.length + S.length) := by
  obtain ⟨ys, e, -⟩ := qSortHelper_any P (max 1 (S.length - 1)) (pre ++ S ++ post)
    pre.length (pre.length + S.length) (by omega) (by simp) (by omega) (by omega)
  simp only [CompletesWithinDepth, e, Option.isSome_some]

/-- C17 fails on the code: on the sorted ascending input `0, 1, ..., 31`
the call of `qSortHelper` does not run to its end within 30 nested
activations and does within 31; on `0, 1, ..., n - 1` it needs exactly
`n - 1` for every `n ≥ 2`; so no constant `c` bounds the depth by
`c * (log2 n + 1)`, not even on the sorted ascending inputs alone. -/
theorem recursion_depth_on_sorted_input :
    (qSortHelper (qLess (α := Nat)) 30 (List.range 32) 0 ((32 : Nat) : Int) = none ∧
      CompletesWithinDepth (qLess (α := Nat)) 31 (List.range 32) 0 ((32 : Nat) : Int)) ∧
    (∀ n : Nat, 2 ≤ n →
      ¬ CompletesWithinDepth (qLess (α := Nat)) (n - 2) (List.range n) 0 n ∧
      CompletesWithinDepth (qLess (α := Nat)) (n - 1) (List.range n) 0 n) ∧
    ¬ ∃ c : Nat, ∀ n : Nat,
      CompletesWithinDepth (qLess (α := Nat)) (c * (Nat.log2 n + 1)) (List.range n) 0 n := by
  have hgen : ∀ n : Nat, 2 ≤ n →
      qSortHelper (qLess (α := Nat)) (n - 2) (List.range n) 0 n = none ∧
      CompletesWithinDepth (qLess (α := Nat)) (n - 1) (List.range n) 0 n := by
    intro n hn
    refine ⟨range_needs_depth n (n - 2) (by omega), ?_⟩
    obtain ⟨ys, e, -⟩ := qSortHelper_any (qLess (α := Nat)) (n - 1) (List.range n) 0 n
      (le_refl _) (by simp) (by omega) (by omega)
    simp only [CompletesWithinDepth, e, Option.isSome_some]
  refine ⟨hgen 32 (by decide), ?_, ?_⟩
  · intro n hn
    refine ⟨?_, (hgen n hn).2⟩
    intro h
    unfold CompletesWithinDepth at h
    rw [(hgen n hn).1] at h
    exact absurd h (by decide)
  · rintro ⟨c, h⟩
    obtain ⟨N, hN⟩ := log_bound_exceeded c
    have h1 := h N
    unfold CompletesWithinDepth at h1
    rw [range_needs_depth N (c * (Nat.log2 N + 1)) hN] at h1
    exact absurd h1 (by decide)

/-- C19: for every Boolean predicate, strict weak ordering or not,
`qSortHelper` (and `qSort`) runs to its end, leaves the memory outside
`[start, end)` as it was and leaves in the range a permutation of its
elements; also when the memory is the range alone, where a read or swap
outside `[start, end)` would fail. -/
theorem qSortHelper_any_predicate (P : α → α → Bool) (pre S post : List α) :
    (∃ out, qSortHelper P (S.length + 1) (pre ++ S ++ post) pre.length
          (pre.length + S.length) = some (pre ++ out ++ post) ∧
        qSort P (pre ++ S ++ post) pre.length (pre.length + S.length)
          = some (pre ++ out ++ post) ∧
        out.Perm S) ∧
    (∃ out, qSortHelper P (S.length + 1) S 0 S.length = some out ∧ out.Perm S) := by
  constructor
  · obtain ⟨ys, e, sh⟩ := qSortHelper_any P (S.length + 1) (pre ++ S ++ post)
      pre.length (pre.length + S.length) (by omega) (by simp) (by omega) (by omega)
    obtain ⟨out, rfl, hlen, hperm⟩ := sh.decompose
    refine ⟨out, e, ?_, hperm⟩
    have hfuel : ((pre.length : Int) + S.length - pre.length).toNat + 1 = S.length + 1 := by
      omega
    unfold qSort
    split
    · rw [hfuel]
      exact e
    · rename_i hne
      have hS : S = [] := by
        apply List.eq_nil_of_length_eq_zero
        simp only [ne_eq, not_not] at hne
        omega
      subst hS
      have : out = [] := List.eq_nil_of_length_eq_zero (by simpa using hlen)
      subst this
      rfl
  · obtain ⟨ys, e, sh⟩ := qSortHelper_any P (S.length + 1) S 0 S.length (le_refl _)
      (le_refl _) (by omega) (by omega)
    exact ⟨ys, e, sh.perm⟩

/-- C20 fails on the code: on `[1, 2, 3]` (first `1`, middle `2`, last
`3`) the element the partition loop uses as pivot is `3`, and two samples,
`1` and `2`, are less than it; the same pivot `3` is chosen for every
arrangement of the three elements. -/
theorem pivot_is_greatest_sample :
    pivotElement (qLess (α := Nat)) [1, 2, 3] 0 3 = some 3 ∧
    deref [1, 2, 3] 0 = some 1 ∧ deref [1, 2, 3] (0 + Int.tdiv (3 - 0) 2) = some 2 ∧
    deref [1, 2, 3] (3 - 1) = some 3 ∧
    qLess 1 3 = true ∧ qLess 2 3 = true ∧
    ∀ xs, xs ∈ [[1, 2, 3], [1, 3, 2], [2, 1, 3], [2, 3, 1], [3, 1, 2], [3, 2, 1]] →
      pivotElement (qLess (α := Nat)) xs 0 3 = some 3 := by
  decide

/-! ## The two exact-match searches on sorted input -/

/-- The public `qBinaryFind` on a sorted sequence: with `lo` the lower
bound, it returns `begin + lo` when the element there is not greater than
the value, and `end` otherwise, in which case no element compares equal. -/
theorem qBinaryFind_core {P : α → α → Bool} (hP : StrictWeakOrder P) (pre S post : List α)
    (v : α) (hs : List.Pairwise (fun x y => P y x = false) S) (hn : (S.length : Int) ≤ INT_MAX) :
    ∃ lo : Nat, qLowerBoundHelper P (pre ++ S ++ post) pre.length (pre.length + S.length) v
        = some ((pre.length : Int) + lo) ∧ lo ≤ S.length ∧
      (∀ i (hi : i < S.length), i < lo → P S[i] v = true) ∧
      (∀ i (hi : i < S.length), lo ≤ i → P S[i] v = false) ∧
      ((∃ h : lo < S.length, P v S[lo] = false ∧
          qBinaryFind P (pre ++ S ++ post) pre.length (pre.length + S.length) v
            = some ((pre.length : Int) + lo)) ∨
        ((∀ x, x ∈ S → ¬ Equivalent P x v) ∧
          qBinaryFind P (pre ++ S ++ post) pre.length (pre.length + S.length) v
            = some ((pre.length : Int) + S.length))) := by
  obtain ⟨lo, e, l1, l2, l3⟩ := lowerBound_core hP pre S post v hs hn
  rw [List.pairwise_iff_getElem] at hs
  refine ⟨lo, e, l1, l2, l3, ?_⟩
  by_cases hlo : lo = S.length
  · subst hlo
    refine Or.inr ⟨?_, by simp only [qBinaryFind, e]; exact if_neg (fun h => h rfl)⟩
    intro x hx hxv
    obtain ⟨i, hi, rfl⟩ := List.mem_iff_getElem.mp hx
    have := l2 i hi hi
    rw [hxv.1] at this
    exact absurd this (by decide)
  · have hlt : lo < S.length := by omega
    have hne : (pre.length : Int) + lo ≠ (pre.length : Int) + S.length := by omega
    have hd := deref_middle pre S post lo hlt
    cases hv : P v S[lo] with
    | false =>
      exact Or.inl ⟨hlt, hv, by simp only [qBinaryFind, e, if_pos hne, hd, hv]; rfl⟩
    | true =>
      refine Or.inr ⟨?_, by simp only [qBinaryFind, e, if_pos hne, hd, hv]; rfl⟩
      intro x hx hxv
      obtain ⟨i, hi, rfl⟩ := List.mem_iff_getElem.mp hx
      by_cases hil : i < lo
      · have := l2 i hi hil
        rw [hxv.1] at this
        exact absurd this (by decide)
      · by_cases hie : i = lo
        · subst hie
          rw [hxv.2] at hv
          exact absurd hv (by decide)
        · have := hP.le_trans (hs lo i hlt hi (by omega)) hxv.2
          rw [this] at hv
          exact absurd hv (by decide)

/-- The three-way loop of `qBinaryFindHelper` on a range where "less than
the value" holds on a prefix and "greater than the value" on a suffix:
it returns a position whose element is neither, or `end_` when every
element is one or the other. -/
theorem binaryFindLoop_spec (P : α → α → Bool) (xs : List α) (begin end_ n : Int) (v : α)
    (h0 : 0 ≤ begin) (hlen : begin + n ≤ xs.length)
    (hless : ∀ i j a b, 0 ≤ i → i ≤ j → j < n → deref xs (begin + i) = some a →
      deref xs (begin + j) = some b → P b v = true → P a v = true)
    (hgreater : ∀ i j a b, 0 ≤ i → i ≤ j → j < n → deref xs (begin + i) = some a →
      deref xs (begin + j) = some b → P v a = true → P v b = true) :
    ∀ (fuel : Nat) (l r : Int), 0 ≤ l → l ≤ r + 1 → r < n →
      (∀ i a, 0 ≤ i → i < l → deref xs (begin + i) = some a → P a v = true) →
      (∀ i a, r < i → i < n → deref xs (begin + i) = some a → P v a = true) →
      (r + 1 - l).toNat < fuel →
      ∃ k, binaryFindLoop P xs begin end_ v fuel l r = some k ∧
        ((k = end_ ∧ ∀ i a, 0 ≤ i → i < n → deref xs (begin + i) = some a →
            P a v = true ∨ P v a = true) ∨
          (∃ m a, 0 ≤ m ∧ m < n ∧ k = begin + m ∧ deref xs (begin + m) = some a ∧
            P a v = false ∧ P v a = false)) := by
  intro fuel
  induction fuel with
  | zero => intro l r _ _ _ _ _ h; omega
  | succ f ih =>
    intro l r hl hlr hrn hL hR hf
    by_cases hc : l ≤ r
    · have hm : Int.tdiv (l + r) 2 = (l + r) / 2 := Int.tdiv_eq_ediv (by omega) (by omega)
      obtain ⟨x, hx⟩ := deref_exists xs (begin + (l + r) / 2) (by omega) (by omega)
      cases ht : P x v with
      | true =>
        obtain ⟨k, e, hk⟩ := ih ((l + r) / 2 + 1) r (by omega) (by omega) hrn
          (by
            intro i a hi1 hi2 ha
            exact hless i ((l + r) / 2) a x hi1 (by omega) (by omega) ha hx ht)
          hR (by omega)
        exact ⟨k, by simp only [binaryFindLoop, if_pos hc, hm, hx, ht, if_true, e], hk⟩
      | false =>
        cases hu : P v x with
        | true =>
          obtain ⟨k, e, hk⟩ := ih l ((l + r) / 2 - 1) hl (by omega) (by omega) hL
            (by
              intro i a hi1 hi2 ha
              exact hgreater ((l + r) / 2) i x a (by omega) (by omega) hi2 hx ha hu)
            (by omega)
          refine ⟨k, ?_, hk⟩
          simp [binaryFindLoop, if_pos hc, hm, hx, ht, hu, e]
        | false =>
          refine ⟨begin + (l + r) / 2, ?_, Or.inr ⟨(l + r) / 2, x, by omega, by omega, rfl, hx,
            ht, hu⟩⟩
          simp [binaryFindLoop, if_pos hc, hm, hx, ht, hu]
    · refine ⟨end_, by simp only [binaryFindLoop, if_neg hc], Or.inl ⟨rfl, ?_⟩⟩
      intro i a hi1 hi2 ha
      by_cases hil : i < l
      · exact Or.inl (hL i a hi1 hil ha)
      · exact Or.inr (hR i a (by omega) hi2 ha)

/-- The helper `qBinaryFindHelper` on a sorted sequence of at most `INT_MAX`
elements: it returns a position of the range whose element compares equal
to the value, or `end` when no element does. -/
theorem qBinaryFindHelper_core {P : α → α → Bool} (hP : StrictWeakOrder P)
    (pre S post : List α) (v : α) (hs : List.Pairwise (fun x y => P y x = false) S)
    (hn : (S.length : Int) ≤ INT_MAX) :
    ∃ r : Int, qBinaryFindHelper P (pre ++ S ++ post) pre.length (pre.length + S.length) v
        = some r ∧
      ((r = (pre.length : Int) + S.length ∧ ∀ x, x ∈ S → ¬ Equivalent P x v) ∨
        (∃ k, ∃ hk : k < S.length, r = (pre.length : Int) + k ∧ Equivalent P S[k] v)) := by
  rw [List.pairwise_iff_getElem] at hs
  have hd : (pre.length : Int) + S.length - pre.length = S.length := by omega
  have hg : ¬ ((S.length : Int) < 0 ∨ (S.length : Int) > INT_MAX) := by omega
  obtain ⟨k, e, hk⟩ := binaryFindLoop_spec P (pre ++ S ++ post) pre.length
    ((pre.length : Int) + S.length) S.length v (by omega)
    (by simp only [List.length_append]; omega)
    (by
      intro i j a b hi hij hj ha hb hbv
      obtain ⟨hi2, hia⟩ := deref_middle_int pre S post i hi (by omega)
      obtain ⟨hj2, hjb⟩ := deref_middle_int pre S post j (by omega) hj
      rw [hia] at ha
      rw [hjb] at hb
      cases ha
      cases hb
      by_cases h : i.toNat = j.toNat
      · simp only [h]
        exact hbv
      · cases hav : P S[i.toNat] v with
        | true => rfl
        | false =>
          rw [hP.le_trans hav (hs i.toNat j.toNat hi2 hj2 (by omega))] at hbv
          exact absurd hbv (by decide))
    (by
      intro i j a b hi hij hj ha hb hva
      obtain ⟨hi2, hia⟩ := deref_middle_int pre S post i hi (by omega)
      obtain ⟨hj2, hjb⟩ := deref_middle_int pre S post j (by omega) hj
      rw [hia] at ha
      rw [hjb] at hb
      cases ha
      cases hb
      by_cases h : i.toNat = j.toNat
      · simp only [← h]
        exact hva
      · cases hvb : P v S[j.toNat] with
        | true => rfl
        | false =>
          rw [hP.le_trans (hs i.toNat j.toNat hi2 hj2 (by omega)) hvb] at hva
          exact absurd hva (by decide))
    (S.length + 1) 0 ((S.length : Int) - 1) (le_refl _) (by omega) (by omega)
    (by intro i a h1 h2; omega) (by intro i a h1 h2; omega) (by omega)
  refine ⟨k, by simp only [qBinaryFindHelper, hd, if_neg hg, Int.toNat_ofNat, e], ?_⟩
  rcases hk with ⟨rfl, hall⟩ | ⟨m, a, hm0, hmn, rfl, hma, h1, h2⟩
  · refine Or.inl ⟨rfl, ?_⟩
    intro x hx hxv
    obtain ⟨i, hi, rfl⟩ := List.mem_iff_getElem.mp hx
    rcases hall i S[i] (by omega) (by omega) (deref_middle pre S post i hi) with h | h
    · rw [hxv.1] at h
      exact absurd h (by decide)
    · rw [hxv.2] at h
      exact absurd h (by decide)
  · obtain ⟨hm2, hms⟩ := deref_middle_int pre S post m hm0 hmn
    rw [hms] at hma
    cases hma
    exact Or.inr ⟨m.toNat, hm2, by omega, h1, h2⟩

/-- C21: on a sequence `S` of at most `INT_MAX` elements sorted under a
strict weak ordering `P`, when `S` has an element equivalent to `v`,
`qBinaryFind(begin, end, v, P)` returns the position that
`qLowerBound(begin, end, v, P)` returns, which is the lowest index holding
an element equivalent to `v`; and every position other than `end` that
`qBinaryFind` returns is the result of `qLowerBound`. -/
theorem qBinaryFind_first_equivalent {P : α → α → Bool} (hP : StrictWeakOrder P)
    (pre S post : List α) (v : α) (hs : List.Chain' (fun x y => P y x = false) S)
    (hn : (S.length : Int) ≤ INT_MAX) :
    ∃ lo : Nat, qLowerBound P (pre ++ S ++ post) pre.length (pre.length + S.length) v
        = some ((pre.length : Int) + lo) ∧
      ((∃ x, x ∈ S ∧ Equivalent P x v) →
        qBinaryFind P (pre ++ S ++ post) pre.length (pre.length + S.length) v
          = some ((pre.length : Int) + lo) ∧
        ∃ h : lo < S.length, Equivalent P S[lo] v ∧
          ∀ j (hj : j < S.length), Equivalent P S[j] v → lo ≤ j) ∧
      (∀ r, qBinaryFind P (pre ++ S ++ post) pre.length (pre.length + S.length) v = some r →
        r ≠ (pre.length : Int) + S.length → r = (pre.length : Int) + lo) := by
  obtain ⟨lo, e, l1, l2, l3, hcase⟩ := qBinaryFind_core hP pre S post v (sorted_of_chain hP hs) hn
  refine ⟨lo, e, ?_, ?_⟩
  · rintro ⟨x, hx, hxv⟩
    rcases hcase with ⟨hlt, hv, hfind⟩ | ⟨hnone, -⟩
    · refine ⟨hfind, hlt, ⟨l3 lo hlt (le_refl _), hv⟩, ?_⟩
      intro j hj hjv
      by_contra hlt2
      have := l2 j hj (by omega)
      rw [hjv.1] at this
      exact absurd this (by decide)
    · exact absurd hxv (hnone x hx)
  · intro r hr hne
    rcases hcase with ⟨-, -, hfind⟩ | ⟨-, hfind⟩
    · rw [hfind] at hr
      exact (Option.some.inj hr).symm
    · rw [hfind] at hr
      exact absurd (Option.some.inj hr).symm hne

/-- Witness of C21: `[1, 2, 2, 5]` stored after `[7]`, searched for `2`;
and on `[1,1,2,3,4,5,5,6,9]` the search for `5` returns index 5, the first
`5`. -/
theorem qBinaryFind_first_equivalent_witness :
    qBinaryFind (qLess (α := Nat)) [1, 1, 2, 3, 4, 5, 5, 6, 9] 0 9 5 = some 5 ∧
    ∃ lo : Nat, qLowerBound (qLess (α := Nat)) ([7] ++ [1, 2, 2, 5] ++ [0]) 1 (1 + 4) 2
        = some ((1 : Int) + lo) ∧
      ((∃ x, x ∈ [1, 2, 2, 5] ∧ Equivalent qLess x 2) →
        qBinaryFind (qLess (α := Nat)) ([7] ++ [1, 2, 2, 5] ++ [0]) 1 (1 + 4) 2
          = some ((1 : Int) + lo) ∧
        ∃ h : lo < [1, 2, 2, 5].length, Equivalent qLess [1, 2, 2, 5][lo] 2 ∧
          ∀ j (hj : j < [1, 2, 2, 5].length), Equivalent qLess [1, 2, 2, 5][j] 2 → lo ≤ j) ∧
      (∀ r, qBinaryFind (qLess (α := Nat)) ([7] ++ [1, 2, 2, 5] ++ [0]) 1 (1 + 4) 2 = some r →
        r ≠ (1 : Int) + 4 → r = (1 : Int) + lo) :=
  ⟨by decide, qBinaryFind_first_equivalent qLess_nat_strictWeakOrder [7] [1, 2, 2, 5] [0] 2
    (by simp [qLess]) (by decide)⟩

/-- C22: on a sequence `S` of at most `INT_MAX` elements sorted under a
strict weak ordering `P`, the three-way helper `qBinaryFindHelper` and the
public `qBinaryFind`, which is built on the lower bound, agree on whether
`v` is found: one returns `end` if and only if the other does; and when both
return a position, each position lies in the range and holds an element
equivalent to `v`. -/
theorem binaryFind_helper_agrees {P : α → α → Bool} (hP : StrictWeakOrder P)
    (pre S post : List α) (v : α) (hs : List.Chain' (fun x y => P y x = false) S)
    (hn : (S.length : Int) ≤ INT_MAX) :
    ∃ r1 r2 : Int,
      qBinaryFindHelper P (pre ++ S ++ post) pre.length (pre.length + S.length) v = some r1 ∧
      qBinaryFind P (pre ++ S ++ post) pre.length (pre.length + S.length) v = some r2 ∧
      (r1 = (pre.length : Int) + S.length ↔ r2 = (pre.length : Int) + S.length) ∧
      (r1 ≠ (pre.length : Int) + S.length → r2 ≠ (pre.length : Int) + S.length →
        ∃ k1 k2, ∃ (h1 : k1 < S.length) (h2 : k2 < S.length),
          r1 = (pre.length : Int) + k1 ∧ r2 = (pre.length : Int) + k2 ∧
          Equivalent P S[k1] v ∧ Equivalent P S[k2] v) := by
  have hsorted := sorted_of_chain hP hs
  obtain ⟨r1, e1, hhelper⟩ := qBinaryFindHelper_core hP pre S post v hsorted hn
  obtain ⟨lo, -, -, -, l3, hpublic⟩ := qBinaryFind_core hP pre S post v hsorted hn
  rcases hhelper with ⟨rfl, hnone1⟩ | ⟨k, hk, rfl, hkv⟩
  · rcases hpublic with ⟨hlt, hv, -⟩ | ⟨-, e2⟩
    · exact absurd ⟨l3 lo hlt (le_refl _), hv⟩ (hnone1 S[lo] (List.getElem_mem hlt))
    · exact ⟨_, _, e1, e2, Iff.rfl, fun h => absurd rfl h⟩
  · rcases hpublic with ⟨hlt, hv, e2⟩ | ⟨hnone2, -⟩
    · refine ⟨_, _, e1, e2, ?_, ?_⟩
      · constructor
        · intro h
          omega
        · intro h
          omega
      · intro _ _
        exact ⟨k, lo, hk, hlt, rfl, rfl, hkv, l3 lo hlt (le_refl _), hv⟩
    · exact absurd hkv (hnone2 S[k] (List.getElem_mem hk))

/-- Witness of C22: `[1, 2, 2, 5]` stored after `[7]`, searched for `2`;
and on `[5, 5, 5]` both searches find `5`, the helper at index 1 and the
public function at index 0. -/
theorem binaryFind_helper_agrees_witness :
    (qBinaryFindHelper (qLess (α := Nat)) [5, 5, 5] 0 3 5 = some 1 ∧
      qBinaryFind (qLess (α := Nat)) [5, 5, 5] 0 3 5 = some 0) ∧
    ∃ r1 r2 : Int,
      qBinaryFindHelper (qLess (α := Nat)) ([7] ++ [1, 2, 2, 5] ++ [0]) 1 (1 + 4) 2
        = some r1 ∧
      qBinaryFind (qLess (α := Nat)) ([7] ++ [1, 2, 2, 5] ++ [0]) 1 (1 + 4) 2 = some r2 ∧
      (r1 = (1 : Int) + 4 ↔ r2 = (1 : Int) + 4) ∧
      (r1 ≠ (1 : Int) + 4 → r2 ≠ (1 : Int) + 4 →
        ∃ k1 k2, ∃ (h1 : k1 < [1, 2, 2, 5].length) (h2 : k2 < [1, 2, 2, 5].length),
          r1 = (1 : Int) + k1 ∧ r2 = (1 : Int) + k2 ∧
          Equivalent qLess [1, 2, 2, 5][k1] 2 ∧ Equivalent qLess [1, 2, 2, 5][k2] 2) :=
  ⟨by decide, binaryFind_helper_agrees qLess_nat_strictWeakOrder [7] [1, 2, 2, 5] [0] 2
    (by simp [qLess]) (by decide)⟩

end QAlgorithms
